import Mathlib

/-!
rf: repository finder.

A shallow embedding of `main.go` (package `main` of gmtstephane/rf) and the
properties of its scanner and cache store.

Conventions of the embedding.

* A Go `string` is a sequence of bytes: `Str := List Nat`. Text literals are
  written with `ascii`, which maps every character of an ASCII literal to its
  byte.
* The platform is Unix: `os.PathSeparator` is `/` (the source itself hard-codes
  the suffix `"/.git"`).
* Functions of the Go standard library that the program calls (`strings.*`,
  `filepath.Clean`, `filepath.Join`, `filepath.Walk`, `encoding/json`) are
  modelled after their documented behaviour and are named after the library
  function they stand for.
-/

namespace RF

/-! ## Strings -/

/-- A Go string: a sequence of bytes. -/
abbrev Str := List Nat

/-- The bytes of an ASCII literal. -/
def ascii (s : String) : Str := s.data.map Char.toNat

/-- The byte of `os.PathSeparator` on Unix, `/`. -/
def sep : Nat := 47

/-- The path element `.`. -/
def dot : Str := [46]

/-- The path element `..`. -/
def dotdot : Str := [46, 46]

/-- Go `strings.HasSuffix(s, suffix)`:
`len(s) >= len(suffix) && s[len(s)-len(suffix):] == suffix`. -/
def HasSuffix (s suffix : Str) : Bool :=
  decide (suffix.length ≤ s.length) && decide (s.drop (s.length - suffix.length) = suffix)

/-- Go `strings.TrimSuffix(s, suffix)`: `s` without the trailing `suffix`, or
`s` itself when it does not end in `suffix`. -/
def TrimSuffix (s suffix : Str) : Str :=
  if HasSuffix s suffix then s.take (s.length - suffix.length) else s

/-- Go `strings.Split(s, sep)` for a one-byte separator: the substrings of `s`
between the occurrences of `c`; always at least one element. -/
def Split (s : Str) (c : Nat) : List Str :=
  match s with
  | [] => [[]]
  | b :: bs =>
    if b = c then [] :: Split bs c
    else
      match Split bs c with
      | [] => [[b]]
      | e :: es => (b :: e) :: es

/-- Go `strings.Join(elems, "/")`. -/
def joinSep (elems : List Str) : Str := [sep].intercalate elems

/-! ## path/filepath -/

/-- One step of `filepath.Clean` on the elements of a path: empty elements and
`.` are dropped, `..` removes the element before it when there is one that is
not itself `..`, is dropped at the top of a rooted path, and is kept
otherwise; any other element is appended. -/
def cleanStep (rooted : Bool) (out : List Str) (e : Str) : List Str :=
  if e = [] ∨ e = dot then out
  else if e = dotdot then
    match out.getLast? with
    | some t => if t = dotdot then out ++ [dotdot] else out.dropLast
    | none => if rooted then out else out ++ [dotdot]
  else out ++ [e]

/-- Go `filepath.Clean(path)` on Unix: the shortest path name equivalent to
`path` by purely lexical processing. The empty path becomes `.`; the result
ends in a separator only when it is the root `/`. -/
def Clean (path : Str) : Str :=
  if path = [] then dot
  else
    let rooted := decide (path.head? = some sep)
    let out := (Split path sep).foldl (cleanStep rooted) []
    if rooted then sep :: joinSep out
    else if out = [] then dot
    else joinSep out

/-- Go `filepath.Join(elem...)` on Unix: leading empty elements are ignored,
the remaining ones are joined with the separator and the result is cleaned;
when every element is empty the result is the empty string. -/
def Join (elem : List Str) : Str :=
  match elem.dropWhile (fun e => decide (e = [])) with
  | [] => []
  | es => Clean (joinSep es)

/-! ## The scanner's label (`main.go`, lines 73-79) -/

/-- Go `getLastTwoElements`. -/
def getLastTwoElements (path : Str) : Str :=
  let elements := Split path sep
  if elements.length < 2 then path
  else Join [elements.getD (elements.length - 2) [], elements.getD (elements.length - 1) []]

/-! ## Well-formed names and roots -/

/-- An ordinary file name, as a directory listing returns it: not empty, free
of separators, and neither `.` nor `..`. -/
def Name (n : Str) : Prop := n ≠ [] ∧ sep ∉ n ∧ n ≠ dot ∧ n ≠ dotdot

instance instDecidableName (n : Str) : Decidable (Name n) := by
  unfold Name; infer_instance

/-- A path the walk can extend by plain concatenation: already clean, and
neither the root directory `/` nor the current directory `.`. -/
def CleanRoot (q : Str) : Prop := Clean q = q ∧ q ≠ [sep] ∧ q ≠ dot

instance instDecidableCleanRoot (q : Str) : Decidable (CleanRoot q) := by
  unfold CleanRoot; infer_instance

/-! ## The file tree seen by `filepath.Walk` -/

/-- A descriptor, Go `type repo struct`. -/
structure repo where
  ShortName : Str
  FullPath : Str
deriving DecidableEq, Repr

/-- A Go slice `[]repo`; `none` is the nil slice, which differs from the empty
slice `some []` only in its JSON encoding. -/
abbrev Slice := Option (List repo)

/-- The elements of a slice. -/
def Slice.elems : Slice → List repo
  | none => []
  | some l => l

/-- Go `append(s, r)`. -/
def appendRepo (s : Slice) (r : repo) : Slice := some (s.elems ++ [r])

/-- A Go `error` value as the walk handles it: the sentinel `filepath.SkipDir`
or an error reported by the operating system, identified by a code. -/
inductive GoError where
  | SkipDir
  | os (code : Nat)
deriving DecidableEq, Repr

mutual
/-- What `os.Lstat` and the directory listing show at one path. -/
inductive Node where
  /-- `os.Lstat` fails with the error `e` (a broken entry, a missing root). -/
  | broken (e : Nat)
  /-- `os.Lstat` succeeds and the entry is not a directory. -/
  | file
  /-- A directory whose listing fails with the error `e`. -/
  | unreadable (e : Nat)
  /-- A directory and its entries, in the order the listing returns them. -/
  | dir (entries : Entries)
/-- The entries of a directory: name and content of each. -/
inductive Entries where
  | nil
  | cons (name : Str) (child : Node) (rest : Entries)
end

/-- Go `info.IsDir()` for an entry whose `Lstat` succeeded. -/
def Node.isDir : Node → Bool
  | .unreadable _ => true
  | .dir _ => true
  | _ => false

/-- The suffix `.terraform`. -/
def terraformSuffix : Str := ascii ".terraform"

/-- The name `.git`. -/
def gitName : Str := ascii ".git"

/-- The suffix `/.git`. -/
def gitSuffix : Str := ascii "/.git"

/-- The name `go.mod`. -/
def goModName : Str := ascii "go.mod"

/-! ## The scanner (`main.go`, lines 13-51) -/

/-- Go `hasGoMod`; `stat p` tells whether `os.Stat(p)` succeeds. -/
def hasGoMod (stat : Str → Bool) (path : Str) : Bool :=
  let goModPath := Join [path, goModName]
  stat goModPath

/-- The function literal passed to `filepath.Walk` in `findGitFolders`; the
captured variable `gitFolders` is threaded through. `isDir` is `info.IsDir()`,
which the function reads only when `err` is nil. -/
def walkFn (stat : Str → Bool) (gitFolders : Slice) (path : Str) (isDir : Bool)
    (err : Option GoError) : Slice × Option GoError :=
  match err with
  | some e => (gitFolders, some e)
  | none =>
    if isDir then
      if HasSuffix path terraformSuffix then (gitFolders, some GoError.SkipDir)
      else if HasSuffix path gitSuffix then
        let repoPath := TrimSuffix path gitSuffix
        if hasGoMod stat repoPath then
          let last := getLastTwoElements repoPath
          (appendRepo gitFolders ⟨last, repoPath⟩, some GoError.SkipDir)
        else
          (appendRepo gitFolders ⟨getLastTwoElements repoPath, repoPath⟩, some GoError.SkipDir)
      else (gitFolders, none)
    else (gitFolders, none)

mutual
/-- Go `filepath.walk(path, info, walkFn)`: the callback is called on the
entry, after its listing has been read when it is a directory; the entries of
a directory are then walked in order. Both callers report an entry whose
`Lstat` fails to the callback themselves, with the outcome given here for
`broken`. -/
def walk (stat : Str → Bool) (path : Str) : Node → Slice → Slice × Option GoError
  | .broken e, g => walkFn stat g path false (some (GoError.os e))
  | .file, g => walkFn stat g path false none
  | .unreadable e, g => walkFn stat g path true (some (GoError.os e))
  | .dir entries, g =>
    match walkFn stat g path true none with
    | (g1, none) => walkEntries stat path entries g1
    | (g1, some err1) => (g1, some err1)
/-- The loop of `filepath.walk` over the names of a directory: an entry whose
`Lstat` fails is reported to the callback, the others are walked; `SkipDir`
from a directory is swallowed, any other error ends the loop. -/
def walkEntries (stat : Str → Bool) (path : Str) : Entries → Slice → Slice × Option GoError
  | .nil, g => (g, none)
  | .cons name child rest, g =>
    match child with
    | .broken e =>
      match walkFn stat g (Join [path, name]) false (some (GoError.os e)) with
      | (g1, some (GoError.os e1)) => (g1, some (GoError.os e1))
      | (g1, _) => walkEntries stat path rest g1
    | .file =>
      match walk stat (Join [path, name]) .file g with
      | (g1, none) => walkEntries stat path rest g1
      | (g1, some err) => (g1, some err)
    | .unreadable e =>
      match walk stat (Join [path, name]) (.unreadable e) g with
      | (g1, none) => walkEntries stat path rest g1
      | (g1, some GoError.SkipDir) => walkEntries stat path rest g1
      | (g1, some err) => (g1, some err)
    | .dir es =>
      match walk stat (Join [path, name]) (.dir es) g with
      | (g1, none) => walkEntries stat path rest g1
      | (g1, some GoError.SkipDir) => walkEntries stat path rest g1
      | (g1, some err) => (g1, some err)
end

/-- Go `filepath.Walk(root, walkFn)`: when `os.Lstat` of the root fails the
callback is called with the error, otherwise the tree is walked; `SkipDir` as
final result becomes nil. -/
def Walk (stat : Str → Bool) (root : Str) (tree : Node) (g : Slice) : Slice × Option GoError :=
  let r :=
    match tree with
    | .broken e => walkFn stat g root false (some (GoError.os e))
    | .file => walk stat root .file g
    | .unreadable e => walk stat root (.unreadable e) g
    | .dir entries => walk stat root (.dir entries) g
  match r with
  | (g1, some GoError.SkipDir) => (g1, none)
  | (g1, err) => (g1, err)

/-- Go `findGitFolders(root)`, where `tree` is what the file system shows at
`root`; returns `gitFolders` and `err`. -/
def findGitFolders (stat : Str → Bool) (root : Str) (tree : Node) : Slice × Option GoError :=
  Walk stat root tree none

/-! ## The tree as the specification describes it -/

/-- One entry of a directory tree: its path, the directory that holds it
together with its name (`none` for the root of the scan), whether it is a
directory, the error it fails with if any, and whether it lies beneath a
directory whose path ends in `.terraform` or beneath a directory named
`.git`. -/
structure Entry where
  path : Str
  up : Option (Str × Str)
  isDir : Bool
  fail : Option Nat
  pruned : Bool
deriving DecidableEq, Repr

mutual
/-- Every entry of a tree in depth-first order: a directory first, then the
content of its entries in listing order. The path of an entry is the path of
its directory, the separator, and its name. The root of the scan is the
starting point: it bears no name here (`up = none`), so what it holds is
pruned only when the root path ends in `.terraform`. -/
def Node.listing (up : Option (Str × Str)) (path : Str) (pruned : Bool) : Node → List Entry
  | .broken e => [⟨path, up, false, some e, pruned⟩]
  | .file => [⟨path, up, false, none, pruned⟩]
  | .unreadable e => [⟨path, up, true, some e, pruned⟩]
  | .dir entries =>
    ⟨path, up, true, none, pruned⟩ ::
      entries.listing path
        (pruned || HasSuffix path terraformSuffix || decide (up.map Prod.snd = some gitName))
/-- The entries held by a directory, in depth-first order. -/
def Entries.listing (dir : Str) (pruned : Bool) : Entries → List Entry
  | .nil => []
  | .cons name child rest =>
    child.listing (some (dir, name)) (dir ++ sep :: name) pruned ++ rest.listing dir pruned
end

/-- The entries of a list that are not beneath a `.terraform` or `.git`
directory. -/
def unpruned (l : List Entry) : List Entry := l.filter (fun x => !x.pruned)

/-- The entries the scan reaches: those not beneath a `.terraform` or `.git`
directory, in depth-first order. -/
def reached (root : Str) (tree : Node) : List Entry :=
  unpruned (tree.listing none root false)

/-- The descriptor of an entry: for a directory that an enclosing directory
holds under the name `.git`, the path of that enclosing directory and the
label of that path. The root of the scan, which no directory of the tree
holds, gives none. -/
def Entry.repo? (x : Entry) : Option repo :=
  match x.up with
  | some (parent, name) =>
    if x.isDir && decide (name = gitName) then some ⟨getLastTwoElements parent, parent⟩
    else none
  | none => none

/-- The descriptors of a list of entries, in order. -/
def descriptors (l : List Entry) : List repo := l.filterMap Entry.repo?

/-- The outcome the specification gives for a sequence of reached entries:
the descriptors up to the first failing entry, and its error. -/
def replay : List Entry → List repo × Option Nat
  | [] => ([], none)
  | x :: xs =>
    match x.fail with
    | some e => ([], some e)
    | none => (x.repo?.toList ++ (replay xs).1, (replay xs).2)

mutual
/-- Every name in the tree is an ordinary file name. -/
def Node.wellNamed : Node → Bool
  | .dir entries => entries.wellNamed
  | _ => true
/-- Every name in the entries, and beneath them, is an ordinary file name. -/
def Entries.wellNamed : Entries → Bool
  | .nil => true
  | .cons name child rest => decide (Name name) && child.wellNamed && rest.wellNamed
end

/-- Entries written as a list of pairs. -/
def Entries.ofList (l : List (Str × Node)) : Entries :=
  l.foldr (fun p r => Entries.cons p.1 p.2 r) Entries.nil

/-- The path of an entry agrees with the place the entry has in the tree: the
root of the scan is a clean path that does not itself end in `/.git`, any
other entry is named by an ordinary name inside a clean directory path. -/
def Linked (up : Option (Str × Str)) (path : Str) : Prop :=
  match up with
  | none => CleanRoot path ∧ HasSuffix path gitSuffix = false
  | some (q, n) => CleanRoot q ∧ Name n ∧ path = q ++ sep :: n

/-- The entries hold a directory named `.git`: their directory is a
repository root. -/
def Entries.hasGit : Entries → Bool
  | .nil => false
  | .cons name child rest => (decide (name = gitName) && child.isDir) || rest.hasGit

mutual
/-- The tree without the regular files named `go.mod` that lie directly in a
repository root. -/
def Node.stripGoMod : Node → Node
  | .dir entries => .dir (entries.stripGoMod entries.hasGit)
  | .broken e => .broken e
  | .file => .file
  | .unreadable e => .unreadable e
/-- The entries without the regular files named `go.mod`, when `inRepoRoot`
says that their directory is a repository root. -/
def Entries.stripGoMod (inRepoRoot : Bool) : Entries → Entries
  | .nil => .nil
  | .cons name child rest =>
    match child with
    | .file =>
      if inRepoRoot && decide (name = goModName) then rest.stripGoMod inRepoRoot
      else .cons name .file (rest.stripGoMod inRepoRoot)
    | .broken e => .cons name (.broken e) (rest.stripGoMod inRepoRoot)
    | .unreadable e => .cons name (.unreadable e) (rest.stripGoMod inRepoRoot)
    | .dir es => .cons name (Node.dir es).stripGoMod (rest.stripGoMod inRepoRoot)
end

/-! ## unicode/utf8 -/

/-- Go `utf8.RuneError`, U+FFFD. -/
def RuneError : Nat := 0xFFFD

/-- A Unicode scalar value: a code point that is not a surrogate. -/
def ValidRune (r : Nat) : Prop := r < 0xD800 ∨ (0xE000 ≤ r ∧ r ≤ 0x10FFFF)

instance instDecidableValidRune (r : Nat) : Decidable (ValidRune r) := by
  unfold ValidRune; infer_instance

/-- Go `utf8.DecodeRune(p)`: the first rune of `p` and its width in bytes;
`(RuneError, 1)` when `p` does not start with a well-formed encoding and
`(RuneError, 0)` when it is empty. Division and remainder by powers of two
stand for the shifts and masks of the library. -/
def DecodeRune (p : Str) : Nat × Nat :=
  match p with
  | [] => (RuneError, 0)
  | b0 :: rest =>
    if b0 < 0x80 then (b0, 1)
    else if b0 < 0xC2 then (RuneError, 1)
    else if b0 < 0xE0 then
      match rest with
      | b1 :: _ =>
        if 0x80 ≤ b1 ∧ b1 ≤ 0xBF then ((b0 - 0xC0) * 64 + (b1 - 0x80), 2)
        else (RuneError, 1)
      | [] => (RuneError, 1)
    else if b0 < 0xF0 then
      match rest with
      | b1 :: b2 :: _ =>
        if (if b0 = 0xE0 then 0xA0 else 0x80) ≤ b1 ∧ b1 ≤ (if b0 = 0xED then 0x9F else 0xBF) ∧
            0x80 ≤ b2 ∧ b2 ≤ 0xBF then
          ((b0 - 0xE0) * 4096 + (b1 - 0x80) * 64 + (b2 - 0x80), 3)
        else (RuneError, 1)
      | _ => (RuneError, 1)
    else if b0 < 0xF5 then
      match rest with
      | b1 :: b2 :: b3 :: _ =>
        if (if b0 = 0xF0 then 0x90 else 0x80) ≤ b1 ∧ b1 ≤ (if b0 = 0xF4 then 0x8F else 0xBF) ∧
            0x80 ≤ b2 ∧ b2 ≤ 0xBF ∧ 0x80 ≤ b3 ∧ b3 ≤ 0xBF then
          ((b0 - 0xF0) * 262144 + (b1 - 0x80) * 4096 + (b2 - 0x80) * 64 + (b3 - 0x80), 4)
        else (RuneError, 1)
      | _ => (RuneError, 1)
    else (RuneError, 1)

/-- Go `utf8.AppendRune(nil, r)`: the UTF-8 encoding of `r`; surrogates and
values above U+10FFFF are encoded as `RuneError`. -/
def EncodeRune (r : Nat) : Str :=
  if r ≤ 0x7F then [r]
  else if r ≤ 0x7FF then [0xC0 + r / 64, 0x80 + r % 64]
  else if r > 0x10FFFF ∨ (0xD800 ≤ r ∧ r ≤ 0xDFFF) then [0xEF, 0xBF, 0xBD]
  else if r ≤ 0xFFFF then [0xE0 + r / 4096, 0x80 + r / 64 % 64, 0x80 + r % 64]
  else [0xF0 + r / 262144, 0x80 + r / 4096 % 64, 0x80 + r / 64 % 64, 0x80 + r % 64]

/-- The string is well-formed UTF-8: the encoding of a sequence of Unicode
scalar values. -/
def ValidUTF8 (s : Str) : Prop :=
  ∃ runes : List Nat, (∀ r ∈ runes, ValidRune r) ∧ s = runes.flatMap EncodeRune

/-! ## encoding/json: encoding -/

/-- The digit of `"0123456789abcdef"` at index `n`. -/
def hexDigit (n : Nat) : Nat := if n < 10 then 48 + n else 87 + n

/-- Go `htmlSafeSet[b]` for an ASCII byte: the byte is written to a JSON
string as it is. False for control characters, `"`, `\`, `<`, `>`, `&`. -/
def htmlSafe (b : Nat) : Bool :=
  decide (0x20 ≤ b) && decide (b ≠ 34) && decide (b ≠ 92) && decide (b ≠ 60) &&
    decide (b ≠ 62) && decide (b ≠ 38)

/-- The escape that `appendString` writes for an ASCII byte outside
`htmlSafeSet` (Go 1.22 and later; earlier releases write `\u0008` and
`\u000c` for backspace and form feed, which are decoded to the same
bytes). -/
def escapeByte (b : Nat) : Str :=
  if b = 92 ∨ b = 34 then [92, b]
  else if b = 8 then [92, 98]
  else if b = 12 then [92, 102]
  else if b = 10 then [92, 110]
  else if b = 13 then [92, 114]
  else if b = 9 then [92, 116]
  else [92, 117, 48, 48, hexDigit (b / 16), hexDigit (b % 16)]

/-- The loop of Go `appendString(dst, src, true)` of `encoding/json`: the
content of the JSON string for `src`. Invalid UTF-8 is written as `�`,
U+2028 and U+2029 are escaped. -/
def encodeBody : Nat → Str → Str
  | 0, _ => []
  | _ + 1, [] => []
  | fuel + 1, b :: rest =>
    if b < 0x80 then
      (if htmlSafe b then [b] else escapeByte b) ++ encodeBody fuel rest
    else
      let c := (DecodeRune (b :: rest)).1
      let size := (DecodeRune (b :: rest)).2
      if c = RuneError ∧ size = 1 then
        [92, 117, 102, 102, 102, 100] ++ encodeBody fuel rest
      else if c = 0x2028 ∨ c = 0x2029 then
        [92, 117, 50, 48, 50, hexDigit (c % 16)] ++ encodeBody fuel ((b :: rest).drop size)
      else (b :: rest).take size ++ encodeBody fuel ((b :: rest).drop size)

/-- Go `appendString(nil, src, true)`: the JSON string for `src`. -/
def appendString (src : Str) : Str := 34 :: (encodeBody src.length src ++ [34])

/-- The members that `json.Marshal` writes for a `repo`, in field order;
a field tagged `omitempty` is left out when its string is empty. -/
def repoMembers (r : repo) : List Str :=
  (if r.ShortName = [] then [] else [ascii "\"short_name\": " ++ appendString r.ShortName]) ++
  (if r.FullPath = [] then [] else [ascii "\"full_path\": " ++ appendString r.FullPath])

/-- One element of the array written by `json.MarshalIndent(repos, "", "  ")`:
an object at depth one. -/
def encodeRepo (r : repo) : Str :=
  if repoMembers r = [] then ascii "\x7b\x7d"
  else ascii "\x7b\n    " ++ (ascii ",\n    ").intercalate (repoMembers r) ++ ascii "\n  \x7d"

/-- Go `json.MarshalIndent(repos, "", "  ")` for `repos []repo`; it returns no
error for this type. -/
def MarshalIndent (repos : Slice) : Str :=
  match repos with
  | none => ascii "null"
  | some [] => ascii "[]"
  | some (r :: rs) =>
    ascii "[\n  " ++ (ascii ",\n  ").intercalate ((r :: rs).map encodeRepo) ++ ascii "\n]"

/-! ## encoding/json: decoding -/

/-- Go `isSpace` of `encoding/json`. -/
def isSpace (c : Nat) : Bool := c = 32 || c = 9 || c = 13 || c = 10

/-- The input without its leading white space. -/
def skipSpace : Str → Str
  | [] => []
  | c :: rest => if isSpace c then skipSpace rest else c :: rest

/-- The value of a hexadecimal digit. -/
def hexVal (c : Nat) : Option Nat :=
  if 48 ≤ c ∧ c ≤ 57 then some (c - 48)
  else if 97 ≤ c ∧ c ≤ 102 then some (c - 87)
  else if 65 ≤ c ∧ c ≤ 70 then some (c - 55)
  else none

/-- Go `getu4`, applied to what follows `\u`: the number written by four
hexadecimal digits. -/
def getu4 (s : Str) : Option Nat :=
  match s with
  | a :: b :: c :: d :: _ =>
    match hexVal a, hexVal b, hexVal c, hexVal d with
    | some x, some y, some z, some w => some (x * 4096 + y * 256 + z * 16 + w)
    | _, _, _, _ => none
  | _ => none

/-- The byte denoted by a one-letter escape of a JSON string. -/
def simpleEscape (e : Nat) : Option Nat :=
  if e = 34 ∨ e = 92 ∨ e = 47 then some e
  else if e = 98 then some 8
  else if e = 102 then some 12
  else if e = 110 then some 10
  else if e = 114 then some 13
  else if e = 116 then some 9
  else none

/-- Go `utf16.DecodeRune(r1, r2)` when `r2` is read from a following `\u`
escape: the code point of a surrogate pair, `RuneError` when there is no
valid pair. -/
def surrogatePair (r1 : Nat) (s : Str) : Nat :=
  match s with
  | 92 :: 117 :: rest =>
    match getu4 rest with
    | some r2 =>
      if 0xD800 ≤ r1 ∧ r1 < 0xDC00 ∧ 0xDC00 ≤ r2 ∧ r2 < 0xE000 then
        (r1 - 0xD800) * 1024 + (r2 - 0xDC00) + 0x10000
      else RuneError
    | none => RuneError
  | _ => RuneError

/-- The content of a JSON string, read after the opening quote up to the
closing one (the scanner of `encoding/json` followed by `unquote`): escapes
are resolved, bytes that are not well-formed UTF-8 become U+FFFD. Returns the
content appended to `acc` and the input after the closing quote. -/
def parseStringBody : Nat → Str → Str → Option (Str × Str)
  | 0, _, _ => none
  | _ + 1, [], _ => none
  | fuel + 1, c :: rest, acc =>
    if c = 34 then some (acc, rest)
    else if c = 92 then
      match rest with
      | [] => none
      | e :: rest2 =>
        if e = 117 then
          match getu4 rest2 with
          | none => none
          | some rr =>
            if 0xD800 ≤ rr ∧ rr < 0xE000 then
              if surrogatePair rr (rest2.drop 4) = RuneError then
                parseStringBody fuel (rest2.drop 4) (acc ++ EncodeRune RuneError)
              else
                parseStringBody fuel (rest2.drop 10)
                  (acc ++ EncodeRune (surrogatePair rr (rest2.drop 4)))
            else parseStringBody fuel (rest2.drop 4) (acc ++ EncodeRune rr)
        else
          match simpleEscape e with
          | some b => parseStringBody fuel rest2 (acc ++ [b])
          | none => none
    else if c < 0x20 then none
    else if c < 0x80 then parseStringBody fuel rest (acc ++ [c])
    else
      parseStringBody fuel ((c :: rest).drop (DecodeRune (c :: rest)).2)
        (acc ++ EncodeRune (DecodeRune (c :: rest)).1)

/-- A JSON string at the head of the input: its content and the input after
it. -/
def parseString (input : Str) : Option (Str × Str) :=
  match input with
  | 34 :: rest => parseStringBody rest.length rest []
  | _ => none

/-- The input without its leading decimal digits. -/
def skipDigits : Str → Str
  | [] => []
  | c :: rest => if 48 ≤ c ∧ c ≤ 57 then skipDigits rest else c :: rest

/-- The input after one or more decimal digits. -/
def skipDigits1 (s : Str) : Option Str :=
  match s with
  | c :: rest => if 48 ≤ c ∧ c ≤ 57 then some (skipDigits rest) else none
  | [] => none

/-- The input after a JSON number. -/
def skipNumber (s : Str) : Option Str :=
  let s1 := match s with
    | 45 :: rest => rest
    | _ => s
  let s2 : Option Str := match s1 with
    | 48 :: rest => some rest
    | _ => skipDigits1 s1
  let s3 : Option Str := match s2 with
    | some (46 :: rest) => skipDigits1 rest
    | other => other
  match s3 with
  | some (c :: rest) =>
    if c = 101 ∨ c = 69 then
      match rest with
      | 43 :: rest2 => skipDigits1 rest2
      | 45 :: rest2 => skipDigits1 rest2
      | _ => skipDigits1 rest
    else some (c :: rest)
  | other => other

/-- Go `maxNestingDepth` of `encoding/json`. -/
def maxNestingDepth : Nat := 10000

mutual
/-- The input after one JSON value of any kind, `none` when the input does
not start with a well-formed value or nests deeper than `maxNestingDepth`;
`depth` counts the arrays and objects around the value. -/
def skipValue : Nat → Nat → Str → Option Str
  | 0, _, _ => none
  | fuel + 1, depth, input =>
    match input with
    | 34 :: rest => (parseStringBody rest.length rest []).map Prod.snd
    | 91 :: rest =>
      if depth + 1 > maxNestingDepth then none
      else
        match skipSpace rest with
        | 93 :: rest2 => some rest2
        | rest2 => skipArrayTail fuel (depth + 1) rest2
    | 123 :: rest =>
      if depth + 1 > maxNestingDepth then none
      else
        match skipSpace rest with
        | 125 :: rest2 => some rest2
        | rest2 => skipObjectTail fuel (depth + 1) rest2
    | 116 :: 114 :: 117 :: 101 :: rest => some rest
    | 102 :: 97 :: 108 :: 115 :: 101 :: rest => some rest
    | 110 :: 117 :: 108 :: 108 :: rest => some rest
    | _ => skipNumber input
/-- The input after the elements of an array and its closing bracket, read
from the start of an element. -/
def skipArrayTail : Nat → Nat → Str → Option Str
  | 0, _, _ => none
  | fuel + 1, depth, input =>
    match skipValue fuel depth input with
    | none => none
    | some rest =>
      match skipSpace rest with
      | 44 :: rest2 => skipArrayTail fuel depth (skipSpace rest2)
      | 93 :: rest2 => some rest2
      | _ => none
/-- The input after the members of an object and its closing brace, read from
the start of a key. -/
def skipObjectTail : Nat → Nat → Str → Option Str
  | 0, _, _ => none
  | fuel + 1, depth, input =>
    match parseString input with
    | none => none
    | some (_, rest1) =>
      match skipSpace rest1 with
      | 58 :: rest2 =>
        match skipValue fuel depth (skipSpace rest2) with
        | none => none
        | some rest3 =>
          match skipSpace rest3 with
          | 44 :: rest4 => skipObjectTail fuel depth (skipSpace rest4)
          | 125 :: rest4 => some rest4
          | _ => none
      | _ => none
end

/-- Go `foldName` of `encoding/json`, as far as comparisons with ASCII names
go: ASCII letters are put in upper case, U+017F and U+212A become `S` and `K`;
any other rune outside ASCII folds to a rune outside ASCII and is kept. -/
def foldName : Nat → Str → Str
  | 0, _ => []
  | _ + 1, [] => []
  | fuel + 1, c :: rest =>
    if c < 0x80 then
      (if 97 ≤ c ∧ c ≤ 122 then c - 32 else c) :: foldName fuel rest
    else
      let r := (DecodeRune (c :: rest)).1
      let folded := if r = 0x17F then 83 else if r = 0x212A then 75 else r
      EncodeRune folded ++ foldName fuel ((c :: rest).drop (DecodeRune (c :: rest)).2)

/-- The fields of `repo`. -/
inductive Field where
  | ShortName
  | FullPath
deriving DecidableEq, Repr

/-- The field of `repo` that a JSON key denotes: the field whose name is the
key, otherwise the field whose name equals the key under case folding. -/
def fieldOf (key : Str) : Option Field :=
  if key = ascii "short_name" then some Field.ShortName
  else if key = ascii "full_path" then some Field.FullPath
  else if foldName key.length key = ascii "SHORT_NAME" then some Field.ShortName
  else if foldName key.length key = ascii "FULL_PATH" then some Field.FullPath
  else none

/-- Assignment of a string to a field. -/
def Field.set (f : Field) (r : repo) (v : Str) : repo :=
  match f with
  | Field.ShortName => { r with ShortName := v }
  | Field.FullPath => { r with FullPath := v }

/-- The value of one member of a `repo` object: a string is stored in the
field that the key denotes and `null` leaves the field as it is, any other
value for a field is an error; the value of an unknown key is skipped. -/
def parseMemberValue (key : Str) (input : Str) (r : repo) : Option (repo × Str) :=
  match fieldOf key with
  | none => (skipValue (2 * input.length + 2) 2 input).map (fun rest => (r, rest))
  | some f =>
    match input with
    | 34 :: rest => (parseStringBody rest.length rest []).map (fun p => (f.set r p.1, p.2))
    | 110 :: 117 :: 108 :: 108 :: rest => some (r, rest)
    | _ => none

/-- The members of a `repo` object and its closing brace, read from the start
of a key; a later member overrides an earlier one with the same key. -/
def parseMembers : Nat → Str → repo → Option (repo × Str)
  | 0, _, _ => none
  | fuel + 1, input, r =>
    match parseString input with
    | none => none
    | some (key, rest1) =>
      match skipSpace rest1 with
      | 58 :: rest2 =>
        match parseMemberValue key (skipSpace rest2) r with
        | none => none
        | some (r1, rest3) =>
          match skipSpace rest3 with
          | 44 :: rest4 => parseMembers fuel (skipSpace rest4) r1
          | 125 :: rest4 => some (r1, rest4)
          | _ => none
      | _ => none

/-- One element of the array: an object is decoded into a `repo`, `null`
leaves the zero value, anything else is an error. -/
def parseElement (input : Str) : Option (repo × Str) :=
  match input with
  | 123 :: rest =>
    match skipSpace rest with
    | 125 :: rest2 => some (⟨[], []⟩, rest2)
    | rest2 => parseMembers rest2.length rest2 ⟨[], []⟩
  | 110 :: 117 :: 108 :: 108 :: rest => some (⟨[], []⟩, rest)
  | _ => none

/-- The elements of the array and its closing bracket, read from the start of
an element. -/
def parseElements : Nat → Str → List repo → Option (List repo × Str)
  | 0, _, _ => none
  | fuel + 1, input, acc =>
    match parseElement input with
    | none => none
    | some (r, rest) =>
      match skipSpace rest with
      | 44 :: rest2 => parseElements fuel (skipSpace rest2) (acc ++ [r])
      | 93 :: rest2 => some (acc ++ [r], rest2)
      | _ => none

/-- Go `json.Unmarshal(data, &repos)` for a nil `repos []repo`: the decoded
slice, or `none` when the call returns an error (malformed JSON, or a value
of the wrong type). `null` leaves the slice nil. -/
def Unmarshal (data : Str) : Option Slice :=
  match skipSpace data with
  | 110 :: 117 :: 108 :: 108 :: rest => if skipSpace rest = [] then some none else none
  | 91 :: rest =>
    match skipSpace rest with
    | 93 :: rest2 => if skipSpace rest2 = [] then some (some []) else none
    | rest2 =>
      match parseElements rest2.length rest2 [] with
      | some (l, rest3) => if skipSpace rest3 = [] then some (some l) else none
      | none => none
  | _ => none

/-! ## The cache store (`main.go`, lines 81-142) -/

/-- The file at the cache path: its content when it exists (`os.Stat`
succeeds), whether `os.ReadFile` succeeds on it, and whether `os.WriteFile`
succeeds. A failed write leaves the file as it was. -/
structure Disk where
  data : Option Str
  readable : Bool
  writable : Bool
deriving DecidableEq, Repr

/-- Go `writeCache(outputFile, repos)`; the messages printed on failure are
not modelled. -/
def writeCache (d : Disk) (repos : Slice) : Disk :=
  let reposJSON := MarshalIndent repos
  if d.writable then { d with data := some reposJSON } else d

/-- Go `readReposFromCache(cacheFile)`: the slice, or `none` when the
function returns an error. -/
def readReposFromCache (d : Disk) : Option Slice :=
  match d.data with
  | none => none
  | some file => if d.readable then Unmarshal file else none

/-- Go `readRepos(rootPath, cache)`: the returned slice and the disk
afterwards. -/
def readRepos (stat : Str → Bool) (rootPath : Str) (tree : Node) (d : Disk) : Slice × Disk :=
  match findGitFolders stat rootPath tree with
  | (_, some _) => (some [], d)
  | (gitFolders, none) => (gitFolders, writeCache d gitFolders)

/-- Go `readCache(rootPath, cache)`: the returned slice and the disk
afterwards. -/
def readCache (stat : Str → Bool) (rootPath : Str) (tree : Node) (d : Disk) : Slice × Disk :=
  match d.data with
  | some _ =>
    match readReposFromCache d with
    | none => readRepos stat rootPath tree d
    | some repos => (repos, d)
  | none => readRepos stat rootPath tree d

/-- The text that `appendString` writes for one Unicode scalar value. -/
def encodeRune1 (r : Nat) : Str :=
  if r < 0x80 then (if htmlSafe r then [r] else escapeByte r)
  else if r = 0x2028 ∨ r = 0x2029 then [92, 117, 50, 48, 50, hexDigit (r % 16)]
  else EncodeRune r

/-- Both strings of the descriptor are well-formed UTF-8. -/
def ValidRepo (r : repo) : Prop := ValidUTF8 r.ShortName ∧ ValidUTF8 r.FullPath

/-! ## Sample inputs -/

/-- The answer of `os.Stat` in a file system without any `go.mod`. -/
def noGoMod : Str → Bool := fun _ => false

/-- The answer of `os.Stat` in a file system where every probe succeeds. -/
def everyGoMod : Str → Bool := fun _ => true

/-- A tree whose only `.git` directory is `a/b/.git`. -/
def treeAB : Node :=
  .dir (.ofList [(ascii "a", .dir (.ofList [(ascii "b", .dir (.ofList
    [(ascii ".git", .dir (.ofList [(ascii "HEAD", .file)])), (ascii "main.go", .file)]))])),
    (ascii "notes.txt", .file)])

/-- A repository `p` next to a `.terraform` directory that holds a
repository `x`. -/
def treeTerraform : Node :=
  .dir (.ofList [(ascii "mod.terraform", .dir (.ofList [(ascii "x", .dir (.ofList
    [(ascii ".git", .dir .nil)]))])), (ascii "p", .dir (.ofList [(ascii ".git", .dir .nil)]))])

/-- A repository `a`, then an entry `m` whose `Lstat` fails with error 5, then
a repository `y`. -/
def treeBroken : Node :=
  .dir (.ofList [(ascii "a", .dir (.ofList [(ascii ".git", .dir .nil)])),
    (ascii "m", .broken 5), (ascii "y", .dir (.ofList [(ascii ".git", .dir .nil)]))])

/-- A directory that is itself a repository root. -/
def treeRepo : Node := .dir (.ofList [(ascii ".git", .dir .nil)])

/-- A repository root with a `go.mod` file. -/
def treeRepoGoMod : Node := .dir (.ofList [(ascii ".git", .dir .nil), (ascii "go.mod", .file)])

/-- A cache path with no file, where files can be written and read. -/
def emptyDisk : Disk := ⟨none, true, true⟩

/-- A cache file with malformed content. -/
def malformedDisk : Disk := ⟨some (ascii "oops"), true, true⟩

/-- The text of a cache file holding one descriptor, written without
indentation. -/
def cachedText : Str :=
  ascii "[\x7b\"short_name\": \"a/b\", \"full_path\": \"/r/a/b\"\x7d]"

/-- A cache file holding one descriptor. -/
def cachedDisk : Disk := ⟨some cachedText, true, true⟩

/-- The entries of `treeBroken` under `root` that come before the failing
one. -/
def brokenBefore : List Entry :=
  [⟨ascii "root", none, true, none, false⟩,
   ⟨ascii "root/a", some (ascii "root", ascii "a"), true, none, false⟩,
   ⟨ascii "root/a/.git", some (ascii "root/a", ascii ".git"), true, none, false⟩]

/-- The failing entry of `treeBroken` under `root`. -/
def brokenEntry : Entry := ⟨ascii "root/m", some (ascii "root", ascii "m"), false, some 5, false⟩

/-- The entries of `treeBroken` under `root` that come after the failing
one. -/
def brokenAfter : List Entry :=
  [⟨ascii "root/y", some (ascii "root", ascii "y"), true, none, false⟩,
   ⟨ascii "root/y/.git", some (ascii "root/y", ascii ".git"), true, none, false⟩]

/-- Two descriptors in well-formed UTF-8, one with a letter outside ASCII and
one with both strings empty. -/
def sampleRepos : Slice := some [⟨ascii "a/b", ascii "/r/a/b"⟩, ⟨[], [0xC3, 0xA9]⟩, ⟨[], []⟩]

/-- The path that `filepath.Walk` passes to the callback for the entry
reached from `root` through `names`: the root as it is given, and for every
further entry `filepath.Join` of the path of its directory and its name. -/
def walkPath (root : Str) (names : List Str) : Str :=
  names.foldl (fun p n => Join [p, n]) root

/-- The walk is inside the directory reached from `root` through `names`
without having met the suffix `.terraform`: neither the root path as given
nor any of the names ends in it. -/
def Inside (root : Str) (names : List Str) : Prop :=
  HasSuffix root terraformSuffix = false ∧
    ∀ n ∈ names, Name n ∧ HasSuffix n terraformSuffix = false

/-- The descriptor comes from a directory whose walk path ends in `/.git`,
reached from `root` through ordinary names, none of the directories passed on
the way being skipped as `.terraform`. -/
def FromGitDir (root : Str) (d : repo) : Prop :=
  ∃ names : List Str, (∀ n ∈ names, Name n) ∧
    HasSuffix (walkPath root names) gitSuffix = true ∧
    d.FullPath = TrimSuffix (walkPath root names) gitSuffix ∧
    HasSuffix root terraformSuffix = false ∧
    ∀ n ∈ names.dropLast, HasSuffix n terraformSuffix = false

/-! # Theorems -/

/-! ## Facts about strings and paths -/

theorem hasSuffix_iff (s suffix : Str) : HasSuffix s suffix = true ↔ suffix <:+ s := by
  unfold HasSuffix
  rw [List.suffix_iff_eq_drop]
  constructor
  · intro h
    simp only [Bool.and_eq_true, decide_eq_true_eq] at h
    exact h.2.symm
  · intro h
    have hlen : suffix.length ≤ s.length := by
      have := congrArg List.length h
      simp only [List.length_drop] at this
      omega
    simp only [Bool.and_eq_true, decide_eq_true_eq]
    exact ⟨hlen, h.symm⟩

theorem split_ne_nil (s : Str) (c : Nat) : Split s c ≠ [] := by
  induction s with
  | nil => simp [Split]
  | cons b bs ih =>
    unfold Split
    split
    · simp
    · split <;> simp

theorem split_of_not_mem (s : Str) (c : Nat) (h : c ∉ s) : Split s c = [s] := by
  induction s with
  | nil => simp [Split]
  | cons b bs ih =>
    have hb : b ≠ c := fun e => h (by simp [e])
    have hbs : c ∉ bs := fun m => h (List.mem_cons_of_mem _ m)
    unfold Split
    rw [if_neg hb, ih hbs]

theorem split_append_name (q n : Str) (c : Nat) (h : c ∉ n) :
    Split (q ++ c :: n) c = Split q c ++ [n] := by
  induction q with
  | nil =>
    have : Split (c :: n) c = [] :: Split n c := by
      conv => lhs; unfold Split
      simp
    simp [this, split_of_not_mem n c h, Split]
  | cons b bs ih =>
    by_cases hb : b = c
    · have e1 : Split (b :: bs ++ c :: n) c = [] :: Split (bs ++ c :: n) c := by
        conv => lhs; unfold Split
        simp [hb]
      have e2 : Split (b :: bs) c = [] :: Split bs c := by
        conv => lhs; unfold Split
        simp [hb]
      rw [e1, e2, ih]; rfl
    · obtain ⟨e, es, hes⟩ : ∃ e es, Split bs c = e :: es := by
        cases hs : Split bs c with
        | nil => exact absurd hs (split_ne_nil bs c)
        | cons e es => exact ⟨e, es, rfl⟩
      have e1 : Split (b :: bs ++ c :: n) c = (b :: e) :: (es ++ [n]) := by
        conv => lhs; unfold Split
        simp [hb, ih, hes]
      have e2 : Split (b :: bs) c = (b :: e) :: es := by
        conv => lhs; unfold Split
        simp [hb, hes]
      rw [e1, e2]; rfl

theorem joinSep_cons_cons (a b : Str) (bs : List Str) :
    joinSep (a :: b :: bs) = a ++ sep :: joinSep (b :: bs) := by
  simp [joinSep, List.intercalate, List.intersperse]

theorem joinSep_snoc (out : List Str) (n : Str) (h : out ≠ []) :
    joinSep (out ++ [n]) = joinSep out ++ sep :: n := by
  induction out with
  | nil => exact absurd rfl h
  | cons a as ih =>
    cases as with
    | nil => simp [joinSep, List.intercalate, List.intersperse]
    | cons b bs =>
      have h1 := ih (by simp)
      have e : a :: b :: bs ++ [n] = a :: b :: (bs ++ [n]) := rfl
      have e2 : b :: bs ++ [n] = b :: (bs ++ [n]) := rfl
      rw [e, joinSep_cons_cons, joinSep_cons_cons, ← e2, h1]
      simp

theorem cleanStep_name (rooted : Bool) (out : List Str) (n : Str) (h : Name n) :
    cleanStep rooted out n = out ++ [n] := by
  obtain ⟨h1, _, h3, h4⟩ := h
  simp [cleanStep, h1, h3, h4]

theorem clean_of_not_mem (n : Str) (h1 : n ≠ []) (h2 : sep ∉ n) : Clean n = n := by
  have hhead : n.head? ≠ some sep := by
    cases n with
    | nil => simp
    | cons b bs =>
      simp only [List.head?_cons, ne_eq, Option.some.injEq]
      intro e; exact h2 (by simp [e])
  unfold Clean
  rw [if_neg h1, split_of_not_mem n sep h2]
  simp only [hhead, decide_False, List.foldl_cons, List.foldl_nil, Bool.false_eq_true, if_false]
  by_cases hd : n = dot
  · subst hd; decide
  · by_cases hdd : n = dotdot
    · subst hdd; decide
    · rw [cleanStep_name false [] n ⟨h1, h2, hd, hdd⟩]
      simp [joinSep, List.intercalate, List.intersperse]

theorem clean_extend (q n : Str) (hq : CleanRoot q) (hn : Name n) :
    Clean (q ++ sep :: n) = q ++ sep :: n := by
  obtain ⟨hc, hroot, hdot⟩ := hq
  have hqne : q ≠ [] := by
    intro e; subst e
    exact absurd hc (by decide)
  have hhead : (q ++ sep :: n).head? = q.head? := by
    cases q with
    | nil => exact absurd rfl hqne
    | cons b bs => rfl
  have hne : q ++ sep :: n ≠ [] := by simp
  unfold Clean at hc ⊢
  rw [if_neg hqne] at hc
  rw [if_neg hne, hhead, split_append_name q n sep hn.2.1]
  dsimp only at hc ⊢
  rw [List.foldl_append]
  simp only [List.foldl_cons, List.foldl_nil]
  rw [cleanStep_name _ _ n hn]
  generalize (List.foldl (cleanStep (decide (q.head? = some sep))) [] (Split q sep)) = out at hc ⊢
  by_cases hr : q.head? = some sep
  · simp only [hr, decide_True, if_true] at hc ⊢
    have hout : out ≠ [] := by
      intro e; subst e
      exact hroot (by rw [← hc]; rfl)
    rw [joinSep_snoc out n hout]
    conv => rhs; rw [← hc]
    rfl
  · simp only [hr, decide_False, Bool.false_eq_true, if_false] at hc ⊢
    have hout : out ≠ [] := by
      intro e; subst e
      exact hdot (by rw [← hc]; rfl)
    rw [if_neg hout] at hc
    rw [if_neg (by simp), joinSep_snoc out n hout, hc]

theorem join_pair (q n : Str) (hq : q ≠ []) : Join [q, n] = Clean (q ++ sep :: n) := by
  cases q with
  | nil => exact absurd rfl hq
  | cons b bs =>
    simp [Join, List.dropWhile, joinSep, List.intercalate, List.intersperse]

theorem cleanRoot_ne_nil (q : Str) (hq : CleanRoot q) : q ≠ [] := by
  intro e; subst e
  exact absurd hq.1 (by decide)

theorem join_extend (q n : Str) (hq : CleanRoot q) (hn : Name n) :
    Join [q, n] = q ++ sep :: n := by
  rw [join_pair q n (cleanRoot_ne_nil q hq), clean_extend q n hq hn]

theorem cleanRoot_extend (q n : Str) (hq : CleanRoot q) (hn : Name n) :
    CleanRoot (q ++ sep :: n) := by
  refine ⟨clean_extend q n hq hn, ?_, ?_⟩
  · intro e
    have := congrArg List.length e
    have h0 : 0 < q.length := List.length_pos.mpr (cleanRoot_ne_nil q hq)
    simp at this
    omega
  · intro e
    have := congrArg List.length e
    have h0 : 0 < q.length := List.length_pos.mpr (cleanRoot_ne_nil q hq)
    simp [dot] at this
    omega

theorem cleanRoot_name (n : Str) (hn : Name n) : CleanRoot n := by
  refine ⟨clean_of_not_mem n hn.1 hn.2.1, ?_, hn.2.2.1⟩
  intro e
  exact hn.2.1 (by rw [e]; simp)

theorem getLastTwoElements_of_split (path : Str) (l : List Str) (a b : Str)
    (h : Split path sep = l ++ [a, b]) : getLastTwoElements path = Join [a, b] := by
  unfold getLastTwoElements
  simp only [h]
  have hlen : (l ++ [a, b]).length = l.length + 2 := by simp
  rw [if_neg (by omega), hlen]
  have e1 : (l ++ [a, b]).getD (l.length + 2 - 2) [] = a := by
    have : l.length + 2 - 2 = l.length := by omega
    rw [this, List.getD_eq_getElem?_getD, List.getElem?_append_right (Nat.le_refl _)]
    simp
  have e2 : (l ++ [a, b]).getD (l.length + 2 - 1) [] = b := by
    have : l.length + 2 - 1 = l.length + 1 := by omega
    rw [this, List.getD_eq_getElem?_getD, List.getElem?_append_right (by omega)]
    simp
  rw [e1, e2]

/-! ## C3, C4: the label -/

/-- C3 (as amended): for a path written as the separator followed by a single
name, `getLastTwoElements` returns the name alone, without the leading
separator; a path that contains no separator at all is returned unchanged. -/
theorem getLastTwoElements_single_component (name : Str) (h : sep ∉ name) :
    getLastTwoElements (sep :: name) = name ∧ getLastTwoElements name = name := by
  constructor
  · have hs : Split (sep :: name) sep = [] ++ [[], name] := by
      conv => lhs; unfold Split
      simp [split_of_not_mem name sep h]
    rw [getLastTwoElements_of_split _ _ _ _ hs]
    by_cases hn : name = []
    · subst hn; rfl
    · have : Join [[], name] = Clean name := by
        cases name with
        | nil => exact absurd rfl hn
        | cons b bs => simp [Join, List.dropWhile, joinSep, List.intercalate, List.intersperse]
      rw [this, clean_of_not_mem name hn h]
  · unfold getLastTwoElements
    simp [split_of_not_mem name sep h]

/-- Witness for C3 (as amended), at the path `/repo`. -/
theorem getLastTwoElements_single_component_witness :
    sep ∉ ascii "repo" ∧
    getLastTwoElements (sep :: ascii "repo") = ascii "repo" ∧
    getLastTwoElements (ascii "repo") = ascii "repo" :=
  ⟨by decide, getLastTwoElements_single_component (ascii "repo") (by decide)⟩

/-- C3 (as stated) fails: the label of `/repo` is `repo`, not `/repo`. -/
theorem getLastTwoElements_slash_repo :
    getLastTwoElements (ascii "/repo") = ascii "repo" ∧
    getLastTwoElements (ascii "/repo") ≠ ascii "/repo" := by
  decide

/-- C4 (as amended): for a path whose last two components are ordinary names
(not empty, not `.`, not `..`), `getLastTwoElements` returns the second-to-last
component, the separator and the last component, whatever the earlier
components are. -/
theorem getLastTwoElements_last_two (earlier : List Str) (a b : Str)
    (ha : Name a) (hb : Name b) :
    getLastTwoElements (joinSep (earlier ++ [a, b])) = a ++ sep :: b := by
  have e0 : earlier ++ [a, b] = (earlier ++ [a]) ++ [b] := by simp
  have hsplit : ∃ l, Split (joinSep (earlier ++ [a, b])) sep = l ++ [a, b] := by
    rw [e0, joinSep_snoc _ b (by simp), split_append_name _ b sep hb.2.1]
    by_cases he : earlier = []
    · subst he
      refine ⟨[], ?_⟩
      have : joinSep ([] ++ [a]) = a := by
        simp [joinSep, List.intercalate, List.intersperse]
      rw [this, split_of_not_mem a sep ha.2.1]
      rfl
    · refine ⟨Split (joinSep earlier) sep, ?_⟩
      rw [joinSep_snoc _ a he, split_append_name _ a sep ha.2.1]
      simp
  obtain ⟨l, hl⟩ := hsplit
  rw [getLastTwoElements_of_split _ l a b hl]
  exact join_extend a b (cleanRoot_name a ha) hb

/-- Witness for C4 (as amended), at the path `/srv/git/a/b`. -/
theorem getLastTwoElements_last_two_witness :
    Name (ascii "a") ∧ Name (ascii "b") ∧
    getLastTwoElements (joinSep ([ascii "", ascii "srv", ascii "git"] ++ [ascii "a", ascii "b"]))
      = ascii "a" ++ sep :: ascii "b" :=
  ⟨by decide, by decide,
    getLastTwoElements_last_two [ascii "", ascii "srv", ascii "git"] (ascii "a") (ascii "b")
      (by decide) (by decide)⟩

/-- C4 (as stated) fails: the path `./repo` is made of the two components `.`
and `repo`, and its label is `repo`, not `./repo`. -/
theorem getLastTwoElements_dot_repo :
    joinSep [ascii ".", ascii "repo"] = ascii "./repo" ∧
    getLastTwoElements (joinSep [ascii ".", ascii "repo"]) = ascii "repo" ∧
    getLastTwoElements (joinSep [ascii ".", ascii "repo"]) ≠ ascii "." ++ sep :: ascii "repo" := by
  decide

/-! ## Suffixes of paths -/

theorem suffix_name_of_suffix (t q n : Str) (ht : sep ∉ t) (h : t <:+ q ++ sep :: n) :
    t <:+ n := by
  have h1 : n <:+ q ++ sep :: n := by
    have : q ++ sep :: n = (q ++ [sep]) ++ n := by simp
    rw [this]; exact List.suffix_append _ _
  have h2 : sep :: n <:+ q ++ sep :: n := List.suffix_append _ _
  by_cases hl : t.length ≤ n.length
  · exact List.suffix_of_suffix_length_le h h1 hl
  · have h3 : sep :: n <:+ t :=
      List.suffix_of_suffix_length_le h2 h (by simp only [List.length_cons]; omega)
    exact absurd (h3.subset (List.mem_cons_self _ _)) ht

theorem hasSuffix_terraform_name (q n : Str) :
    HasSuffix (q ++ sep :: n) terraformSuffix = HasSuffix n terraformSuffix := by
  have h1 : n <:+ q ++ sep :: n := by
    have : q ++ sep :: n = (q ++ [sep]) ++ n := by simp
    rw [this]; exact List.suffix_append _ _
  rw [Bool.eq_iff_iff, hasSuffix_iff, hasSuffix_iff]
  constructor
  · intro h
    exact suffix_name_of_suffix _ q n (by decide) h
  · intro h
    exact h.trans h1

theorem hasSuffix_git_iff (q n : Str) (hn : sep ∉ n) :
    HasSuffix (q ++ sep :: n) gitSuffix = true ↔ n = gitName := by
  rw [hasSuffix_iff]
  have h2 : sep :: n <:+ q ++ sep :: n := List.suffix_append _ _
  have hg : gitSuffix = sep :: gitName := by decide
  constructor
  · intro h
    rw [hg] at h
    by_cases hl : (sep :: gitName).length ≤ (sep :: n).length
    · have h3 := List.suffix_of_suffix_length_le h h2 hl
      rcases List.suffix_cons_iff.mp h3 with h4 | h4
      · exact (List.cons.inj h4).2.symm
      · exact absurd (h4.subset (List.mem_cons_self _ _)) hn
    · have h3 := List.suffix_of_suffix_length_le h2 h (by omega)
      rcases List.suffix_cons_iff.mp h3 with h4 | h4
      · exact (List.cons.inj h4).2
      · exact absurd (h4.subset (List.mem_cons_self _ _)) (by decide)
  · intro h
    subst h
    rw [hg]
    exact h2

theorem trimSuffix_git (q : Str) : TrimSuffix (q ++ sep :: gitName) gitSuffix = q := by
  have h : HasSuffix (q ++ sep :: gitName) gitSuffix = true :=
    (hasSuffix_git_iff q gitName (by decide)).mpr rfl
  unfold TrimSuffix
  rw [if_pos h]
  have : (q ++ sep :: gitName).length - gitSuffix.length = q.length := by
    have e1 : gitSuffix.length = 5 := by decide
    have e2 : gitName.length = 4 := by decide
    simp only [List.length_append, List.length_cons, e1, e2]
    omega
  rw [this]
  simp

theorem not_terraform_of_git (q : Str) :
    HasSuffix (q ++ sep :: gitName) terraformSuffix = false := by
  rw [hasSuffix_terraform_name]
  decide

/-! ## The walk against the listing of the tree -/

theorem elems_appendRepo (g : Slice) (r : repo) : (appendRepo g r).elems = g.elems ++ [r] := rfl

theorem linked_cleanRoot (up : Option (Str × Str)) (path : Str) (h : Linked up path) :
    CleanRoot path := by
  cases up with
  | none => exact h.1
  | some p =>
    obtain ⟨q, n⟩ := p
    obtain ⟨hq, hn, hp⟩ := h
    rw [hp]; exact cleanRoot_extend q n hq hn

theorem walkFn_error (stat : Str → Bool) (g : Slice) (path : Str) (d : Bool) (e : GoError) :
    walkFn stat g path d (some e) = (g, some e) := rfl

theorem walkFn_file (stat : Str → Bool) (g : Slice) (path : Str) :
    walkFn stat g path false none = (g, none) := rfl

theorem walkFn_terraform (stat : Str → Bool) (g : Slice) (path : Str)
    (h : HasSuffix path terraformSuffix = true) :
    walkFn stat g path true none = (g, some GoError.SkipDir) := by
  simp [walkFn, h]

theorem walkFn_git (stat : Str → Bool) (g : Slice) (q : Str) :
    walkFn stat g (q ++ sep :: gitName) true none
      = (appendRepo g ⟨getLastTwoElements q, q⟩, some GoError.SkipDir) := by
  have h1 := not_terraform_of_git q
  have h2 : HasSuffix (q ++ sep :: gitName) gitSuffix = true :=
    (hasSuffix_git_iff q gitName (by decide)).mpr rfl
  simp only [walkFn, h1, h2, trimSuffix_git, if_true, Bool.false_eq_true, if_false]
  split <;> rfl

theorem walkFn_plain (stat : Str → Bool) (g : Slice) (path : Str)
    (h1 : HasSuffix path terraformSuffix = false) (h2 : HasSuffix path gitSuffix = false) :
    walkFn stat g path true none = (g, none) := by
  simp [walkFn, h1, h2]

theorem replay_append_some (a b : List Entry) (e : Nat) (h : (replay a).2 = some e) :
    replay (a ++ b) = ((replay a).1, some e) := by
  induction a with
  | nil => simp [replay] at h
  | cons x xs ih =>
    simp only [List.cons_append, replay] at h ⊢
    cases hx : x.fail with
    | some e1 =>
      rw [hx] at h
      simp only at h ⊢
      rw [h]
    | none =>
      rw [hx] at h
      simp only at h ⊢
      have ih2 : replay (xs.append b) = ((replay xs).1, some e) := ih h
      rw [ih2]

theorem replay_append_none (a b : List Entry) (h : (replay a).2 = none) :
    replay (a ++ b) = ((replay a).1 ++ (replay b).1, (replay b).2) := by
  induction a with
  | nil => simp [replay]
  | cons x xs ih =>
    simp only [List.cons_append, replay] at h ⊢
    cases hx : x.fail with
    | some e1 =>
      rw [hx] at h
      simp at h
    | none =>
      rw [hx] at h
      simp only at h ⊢
      have ih2 : replay (xs.append b) = ((replay xs).1 ++ (replay b).1, (replay b).2) := ih h
      rw [ih2]
      simp

mutual
theorem listing_pruned : ∀ (node : Node) (up : Option (Str × Str)) (path : Str),
    unpruned (node.listing up path true) = []
  | .broken e, up, path => by simp [Node.listing, unpruned]
  | .file, up, path => by simp [Node.listing, unpruned]
  | .unreadable e, up, path => by simp [Node.listing, unpruned]
  | .dir es, up, path => by
    have := listingEntries_pruned es path
    simp only [unpruned] at this
    simp only [Node.listing, unpruned, Bool.true_or, List.filter_cons, Bool.not_true,
      Bool.false_eq_true, if_false]
    exact this
theorem listingEntries_pruned : ∀ (es : Entries) (q : Str),
    unpruned (es.listing q true) = []
  | .nil, q => by simp [Entries.listing, unpruned]
  | .cons name child rest, q => by
    have h1 := listing_pruned child (some (q, name)) (q ++ sep :: name)
    have h2 := listingEntries_pruned rest q
    simp only [unpruned] at h1 h2
    simp only [Entries.listing, unpruned, List.filter_append, h1, h2]
    rfl
end

theorem unpruned_append (a b : List Entry) : unpruned (a ++ b) = unpruned a ++ unpruned b := by
  simp [unpruned]

mutual
theorem walk_spec (stat : Str → Bool) : ∀ (node : Node) (up : Option (Str × Str)) (path : Str)
    (g : Slice), node.wellNamed = true → Linked up path →
    (walk stat path node g).1.elems
        = g.elems ++ (replay (unpruned (node.listing up path false))).1 ∧
    (∀ e, (replay (unpruned (node.listing up path false))).2 = some e →
        (walk stat path node g).2 = some (GoError.os e)) ∧
    ((replay (unpruned (node.listing up path false))).2 = none →
        (walk stat path node g).2 = none ∨
        (node.isDir = true ∧ (walk stat path node g).2 = some GoError.SkipDir))
  | .broken e, up, path, g, _, _ => by
    simp [walk, Node.listing, unpruned, replay, walkFn_error]
  | .file, up, path, g, _, _ => by
    cases up with
    | none => simp [walk, Node.listing, unpruned, replay, walkFn_file, Entry.repo?]
    | some p => simp [walk, Node.listing, unpruned, replay, walkFn_file, Entry.repo?]
  | .unreadable e, up, path, g, _, _ => by
    simp [walk, Node.listing, unpruned, replay, walkFn_error]
  | .dir es, up, path, g, hw, hl => by
    have hcr := linked_cleanRoot up path hl
    have hes : es.wellNamed = true := by simpa [Node.wellNamed] using hw
    by_cases ht : HasSuffix path terraformSuffix = true
    · -- a `.terraform` directory: skipped, nothing beneath it is reached
      have hnot : (match up with
          | some (parent, name) => decide (name = gitName)
          | none => false) = false := by
        cases up with
        | none => rfl
        | some p =>
          obtain ⟨q, n⟩ := p
          obtain ⟨_, _, hp⟩ := hl
          by_cases hn : n = gitName
          · subst hn; subst hp
            rw [not_terraform_of_git] at ht
            exact absurd ht (by simp)
          · simp [hn]
      have hlist : unpruned ((Node.dir es).listing up path false)
          = [⟨path, up, true, none, false⟩] := by
        simp only [Node.listing, ht, Bool.false_or, Bool.true_or, Bool.or_true]
        simp only [unpruned, List.filter_cons, Bool.not_false, if_true]
        have := listingEntries_pruned es path
        simp only [unpruned] at this
        rw [this]
      have hrepo : (⟨path, up, true, none, false⟩ : Entry).repo? = none := by
        cases up with
        | none => rfl
        | some p =>
          obtain ⟨q, n⟩ := p
          simp only [Entry.repo?, Bool.true_and]
          simp only at hnot
          rw [hnot]; rfl
      rw [hlist]
      simp [walk, walkFn_terraform stat g path ht, replay, hrepo, Node.isDir]
    · have ht2 : HasSuffix path terraformSuffix = false := by simpa using ht
      cases up with
      | none =>
        have hlist : unpruned ((Node.dir es).listing none path false)
            = ⟨path, none, true, none, false⟩ :: unpruned (es.listing path false) := by
          simp [Node.listing, ht2, unpruned]
        have ih := walkEntries_spec stat es path g hes hcr
        rw [hlist]
        simp only [walk, walkFn_plain stat g path ht2 hl.2, replay, Entry.repo?,
          Option.toList, List.nil_append]
        refine ⟨ih.1, ?_, ?_⟩
        · intro e he
          rw [ih.2, he]; rfl
        · intro he
          left
          rw [ih.2, he]; rfl
      | some p =>
        obtain ⟨q, n⟩ := p
        obtain ⟨hq, hn, hp⟩ := hl
        by_cases hg : n = gitName
        · -- a `.git` directory: recorded and skipped
          subst hg; subst hp
          have hlist : unpruned ((Node.dir es).listing (some (q, gitName))
              (q ++ sep :: gitName) false)
              = [⟨q ++ sep :: gitName, some (q, gitName), true, none, false⟩] := by
            simp only [Node.listing, Option.map_some', decide_True, Bool.or_true]
            simp only [unpruned, List.filter_cons, Bool.not_false, if_true]
            have := listingEntries_pruned es (q ++ sep :: gitName)
            simp only [unpruned] at this
            rw [this]
          rw [hlist]
          simp [walk, walkFn_git, replay, Entry.repo?, Node.isDir, elems_appendRepo]
        · subst hp
          have hg2 : HasSuffix (q ++ sep :: n) gitSuffix = false := by
            rw [Bool.eq_false_iff]
            intro h
            exact hg ((hasSuffix_git_iff q n hn.2.1).mp h)
          have hlist : unpruned ((Node.dir es).listing (some (q, n)) (q ++ sep :: n) false)
              = ⟨q ++ sep :: n, some (q, n), true, none, false⟩
                  :: unpruned (es.listing (q ++ sep :: n) false) := by
            simp [Node.listing, ht2, unpruned, hg]
          have ih := walkEntries_spec stat es (q ++ sep :: n) g hes hcr
          rw [hlist]
          simp only [walk, walkFn_plain stat g _ ht2 hg2, replay, Entry.repo?, hg,
            decide_False, Bool.and_false, Bool.false_eq_true, if_false,
            Option.toList, List.nil_append]
          refine ⟨ih.1, ?_, ?_⟩
          · intro e he
            rw [ih.2, he]; rfl
          · intro he
            left
            rw [ih.2, he]; rfl
theorem walkEntries_spec (stat : Str → Bool) : ∀ (es : Entries) (q : Str) (g : Slice),
    es.wellNamed = true → CleanRoot q →
    (walkEntries stat q es g).1.elems
        = g.elems ++ (replay (unpruned (es.listing q false))).1 ∧
    (walkEntries stat q es g).2
        = ((replay (unpruned (es.listing q false))).2).map GoError.os
  | .nil, q, g, _, _ => by
    simp [walkEntries, Entries.listing, unpruned, replay]
  | .cons name child rest, q, g, hw, hq => by
    have hw2 : Name name ∧ child.wellNamed = true ∧ rest.wellNamed = true := by
      simpa [Entries.wellNamed, and_assoc] using hw
    obtain ⟨hn, hcw, hrw⟩ := hw2
    have hj : Join [q, name] = q ++ sep :: name := join_extend q name hq hn
    have hl : Linked (some (q, name)) (q ++ sep :: name) := ⟨hq, hn, rfl⟩
    have hc := walk_spec stat child (some (q, name)) (q ++ sep :: name) g hcw hl
    have hlist : unpruned ((Entries.cons name child rest).listing q false)
        = unpruned (child.listing (some (q, name)) (q ++ sep :: name) false)
            ++ unpruned (rest.listing q false) := by
      simp only [Entries.listing, unpruned_append]
    rw [hlist]
    obtain ⟨hc1, hc2, hc3⟩ := hc
    cases hr : (replay (unpruned (child.listing (some (q, name)) (q ++ sep :: name) false))).2 with
    | some e =>
      rw [replay_append_some _ _ e hr]
      have hc2e := hc2 e hr
      cases child with
      | broken e1 =>
        simp only [walk, walkFn_error] at hc1 hc2e
        simp only [walkEntries, hj, walkFn_error]
        have hee : e1 = e := by simpa using hc2e
        subst hee
        exact ⟨hc1, rfl⟩
      | file =>
        simp [walk, walkFn_file] at hc2e
      | unreadable e1 =>
        simp only [walk, walkFn_error] at hc1 hc2e
        simp only [walkEntries, hj, walk, walkFn_error]
        have hee : e1 = e := by simpa using hc2e
        subst hee
        exact ⟨hc1, rfl⟩
      | dir es =>
        simp only [walkEntries, hj]
        cases hwk : walk stat (q ++ sep :: name) (Node.dir es) g with
        | mk g1 r =>
          rw [hwk] at hc1 hc2e
          simp only at hc1 hc2e
          subst hc2e
          exact ⟨hc1, rfl⟩
    | none =>
      rw [replay_append_none _ _ hr]
      have hc3n := hc3 hr
      cases child with
      | broken e1 =>
        simp [Node.listing, unpruned, replay] at hr
      | file =>
        simp only [walk, walkFn_file] at hc1
        simp only [walkEntries, hj, walk, walkFn_file]
        have ih := walkEntries_spec stat rest q g hrw hq
        refine ⟨?_, ih.2⟩
        rw [ih.1, ← List.append_assoc, ← hc1]
      | unreadable e1 =>
        simp [Node.listing, unpruned, replay] at hr
      | dir es =>
        simp only [walkEntries, hj]
        cases hwk : walk stat (q ++ sep :: name) (Node.dir es) g with
        | mk g1 r =>
          rw [hwk] at hc1 hc3n
          simp only at hc1 hc3n
          have ih := walkEntries_spec stat rest q g1 hrw hq
          rcases hc3n with h | ⟨_, h⟩
          · subst h
            refine ⟨?_, ih.2⟩
            rw [ih.1, hc1, List.append_assoc]
          · subst h
            refine ⟨?_, ih.2⟩
            rw [ih.1, hc1, List.append_assoc]
end

theorem replay_no_failure (l : List Entry) (h : ∀ x ∈ l, x.fail = none) :
    replay l = (descriptors l, none) := by
  induction l with
  | nil => rfl
  | cons x xs ih =>
    have hx : x.fail = none := h x (List.mem_cons_self _ _)
    have ih2 := ih (fun y hy => h y (List.mem_cons_of_mem _ hy))
    simp only [replay, hx, ih2, descriptors, List.filterMap_cons]
    cases x.repo? <;> rfl

theorem replay_first_failure (pre post : List Entry) (x : Entry) (e : Nat)
    (hpre : ∀ y ∈ pre, y.fail = none) (hx : x.fail = some e) :
    replay (pre ++ x :: post) = (descriptors pre, some e) := by
  have h1 : replay (x :: post) = ([], some e) := by simp [replay, hx]
  rw [replay_append_none _ _ (by rw [replay_no_failure pre hpre]), replay_no_failure pre hpre, h1]
  simp

theorem walk_eq (stat : Str → Bool) (root : Str) (tree : Node) (g : Slice) :
    Walk stat root tree g =
      match walk stat root tree g with
      | (g1, some GoError.SkipDir) => (g1, none)
      | (g1, err) => (g1, err) := by
  cases tree <;> rfl

theorem findGitFolders_spec (stat : Str → Bool) (root : Str) (tree : Node)
    (hroot : CleanRoot root) (hgit : HasSuffix root gitSuffix = false)
    (hw : tree.wellNamed = true) :
    (findGitFolders stat root tree).1.elems = (replay (reached root tree)).1 ∧
    (findGitFolders stat root tree).2 = ((replay (reached root tree)).2).map GoError.os := by
  have h := walk_spec stat tree none root none hw ⟨hroot, hgit⟩
  obtain ⟨h1, h2, h3⟩ := h
  unfold findGitFolders reached
  rw [walk_eq]
  cases hwk : walk stat root tree none with
  | mk g1 r =>
    rw [hwk] at h1 h2 h3
    simp only at h1 h2 h3
    have h1b : g1.elems = (replay (unpruned (tree.listing none root false))).1 := by
      rw [h1]; rfl
    cases hr : (replay (unpruned (tree.listing none root false))).2 with
    | some e =>
      have := h2 e hr
      subst this
      exact ⟨h1b, rfl⟩
    | none =>
      rcases h3 hr with h | ⟨_, h⟩
      · subst h
        exact ⟨h1b, rfl⟩
      · subst h
        exact ⟨h1b, rfl⟩

theorem walkFn_stat (stat stat2 : Str → Bool) (g : Slice) (path : Str) (d : Bool)
    (err : Option GoError) : walkFn stat g path d err = walkFn stat2 g path d err := by
  unfold walkFn
  cases err with
  | some e => rfl
  | none =>
    simp only
    split
    · split
      · rfl
      · split
        · split <;> split <;> rfl
        · rfl
    · rfl

mutual
theorem walk_stripGoMod (stat stat2 : Str → Bool) : ∀ (node : Node) (path : Str) (g : Slice),
    walk stat path node g = walk stat2 path node.stripGoMod g
  | .broken e, path, g => by simp [walk, Node.stripGoMod, walkFn_error]
  | .file, path, g => by simp [walk, Node.stripGoMod, walkFn_file]
  | .unreadable e, path, g => by simp [walk, Node.stripGoMod, walkFn_error]
  | .dir es, path, g => by
    simp only [walk, Node.stripGoMod]
    rw [walkFn_stat stat stat2]
    cases walkFn stat2 g path true none with
    | mk g1 r =>
      cases r with
      | none => exact walkEntries_stripGoMod stat stat2 es path g1 es.hasGit
      | some e => rfl
theorem walkEntries_stripGoMod (stat stat2 : Str → Bool) : ∀ (es : Entries) (path : Str)
    (g : Slice) (b : Bool), walkEntries stat path es g = walkEntries stat2 path (es.stripGoMod b) g
  | .nil, path, g, b => by simp [walkEntries, Entries.stripGoMod]
  | .cons name child rest, path, g, b => by
    cases child with
    | broken e =>
      simp only [walkEntries, Entries.stripGoMod, walkFn_error]
    | file =>
      simp only [Entries.stripGoMod]
      split
      · simp only [walkEntries, walk, walkFn_file]
        exact walkEntries_stripGoMod stat stat2 rest path g b
      · simp only [walkEntries, walk, walkFn_file]
        exact walkEntries_stripGoMod stat stat2 rest path g b
    | unreadable e =>
      simp only [walkEntries, Entries.stripGoMod, walk, walkFn_error]
    | dir es =>
      have h := walk_stripGoMod stat stat2 (Node.dir es) (Join [path, name]) g
      simp only [Entries.stripGoMod]
      simp only [Node.stripGoMod] at h ⊢
      simp only [walkEntries]
      rw [h]
      cases walk stat2 (Join [path, name]) (Node.dir (es.stripGoMod es.hasGit)) g with
      | mk g1 r =>
        cases r with
        | none => exact walkEntries_stripGoMod stat stat2 rest path g1 b
        | some e =>
          cases e with
          | SkipDir => exact walkEntries_stripGoMod stat stat2 rest path g1 b
          | os c => rfl
end

/-! ## C8, C10: the scanner without failures -/

/-- For a tree whose entries bear ordinary file names and a root that is a
clean path other than `.` and `/` and does not itself end in `/.git`, when no
reached entry fails, `findGitFolders` returns no error and, in depth-first
order, exactly one descriptor for each directory that lies below the root
under the name `.git` and is reached without passing through a directory
whose path ends in `.terraform` or through another such `.git` directory. -/
theorem findGitFolders_exact (stat : Str → Bool) (root : Str) (tree : Node)
    (hroot : CleanRoot root) (hgit : HasSuffix root gitSuffix = false)
    (hw : tree.wellNamed = true) (hok : ∀ x ∈ reached root tree, x.fail = none) :
    (findGitFolders stat root tree).1.elems = descriptors (reached root tree) ∧
    (findGitFolders stat root tree).2 = none := by
  have h := findGitFolders_spec stat root tree hroot hgit hw
  rw [replay_no_failure _ hok] at h
  exact h

/-- C8: when the root path does not exist (`os.Lstat` of it fails),
`findGitFolders` returns that error and the nil slice. -/
theorem findGitFolders_missing_root (stat : Str → Bool) (root : Str) (e : Nat) :
    findGitFolders stat root (Node.broken e) = (none, some (GoError.os e)) ∧
    (findGitFolders stat root (Node.broken e)).1.elems = [] := by
  constructor <;> rfl

/-- C10: two trees that differ only in regular files named `go.mod` lying
directly in repository roots (directories holding a `.git` directory) give the
same result, whatever `os.Stat` answers in each of them. -/
theorem findGitFolders_ignores_goMod (stat1 stat2 : Str → Bool) (root : Str) (t1 t2 : Node)
    (h : t1.stripGoMod = t2.stripGoMod) :
    findGitFolders stat1 root t1 = findGitFolders stat2 root t2 := by
  unfold findGitFolders
  rw [walk_eq, walk_eq, walk_stripGoMod stat1 stat2 t1 root none, h, ← walk_stripGoMod stat2 stat2 t2 root none]

/-! ## C1, C2: the suffix tests of the scanner -/

theorem join_name_form (q n : Str) (hn : Name n) :
    Join [q, n] = n ∨ ∃ p, Join [q, n] = p ++ sep :: n := by
  by_cases hq : q = []
  · subst hq
    left
    have : Join [[], n] = Clean n := by
      cases n with
      | nil => exact absurd rfl hn.1
      | cons b bs => simp [Join, List.dropWhile, joinSep, List.intercalate, List.intersperse]
    rw [this, clean_of_not_mem n hn.1 hn.2.1]
  · rw [join_pair q n hq]
    have hne : q ++ sep :: n ≠ [] := by simp
    unfold Clean
    rw [if_neg hne, split_append_name q n sep hn.2.1]
    dsimp only
    rw [List.foldl_append]
    simp only [List.foldl_cons, List.foldl_nil]
    rw [cleanStep_name _ _ n hn]
    generalize (List.foldl (cleanStep (decide ((q ++ sep :: n).head? = some sep))) []
      (Split q sep)) = out
    have hsingle : joinSep ([] ++ [n]) = n := by
      simp [joinSep, List.intercalate, List.intersperse]
    by_cases hr : (q ++ sep :: n).head? = some sep
    · right
      simp only [hr, decide_True, if_true]
      by_cases hout : out = []
      · subst hout
        exact ⟨[], by rw [hsingle]; rfl⟩
      · exact ⟨sep :: joinSep out, by rw [joinSep_snoc out n hout]; rfl⟩
    · simp only [hr, decide_False, Bool.false_eq_true, if_false]
      rw [if_neg (by simp)]
      by_cases hout : out = []
      · subst hout
        left
        exact hsingle
      · right
        exact ⟨joinSep out, joinSep_snoc out n hout⟩

theorem hasSuffix_join_name (q n : Str) (hn : Name n) :
    HasSuffix (Join [q, n]) terraformSuffix = HasSuffix n terraformSuffix := by
  rcases join_name_form q n hn with h | ⟨p, h⟩
  · rw [h]
  · rw [h, hasSuffix_terraform_name]

theorem not_terraform_of_hasSuffix_git (s : Str) (h : HasSuffix s gitSuffix = true) :
    HasSuffix s terraformSuffix = false := by
  rw [Bool.eq_false_iff]
  intro ht
  rw [hasSuffix_iff] at h ht
  have := List.suffix_of_suffix_length_le h ht (by decide)
  exact absurd this (by decide)

theorem walkPath_snoc (root : Str) (pre : List Str) (name : Str) :
    walkPath root (pre ++ [name]) = Join [walkPath root pre, name] := by
  simp [walkPath, List.foldl_append]

theorem walkFn_dir_cases (stat : Str → Bool) (g : Slice) (p : Str) :
    walkFn stat g p true none = (g, some GoError.SkipDir) ∨
    (HasSuffix p terraformSuffix = false ∧ HasSuffix p gitSuffix = true ∧
      walkFn stat g p true none
        = (appendRepo g ⟨getLastTwoElements (TrimSuffix p gitSuffix), TrimSuffix p gitSuffix⟩,
            some GoError.SkipDir)) ∨
    (HasSuffix p terraformSuffix = false ∧ walkFn stat g p true none = (g, none)) := by
  cases ht : HasSuffix p terraformSuffix with
  | true =>
    left
    simp [walkFn, ht]
  | false =>
    right
    cases hg : HasSuffix p gitSuffix with
    | true =>
      left
      refine ⟨rfl, rfl, ?_⟩
      simp only [walkFn, ht, hg, if_true, Bool.false_eq_true, if_false]
      split <;> rfl
    | false =>
      right
      refine ⟨rfl, ?_⟩
      simp [walkFn, ht, hg]

theorem inside_snoc (root : Str) (pre : List Str) (name : Str) (hi : Inside root pre)
    (hn : Name name) (ht : HasSuffix (Join [walkPath root pre, name]) terraformSuffix = false) :
    Inside root (pre ++ [name]) := by
  refine ⟨hi.1, ?_⟩
  intro n hm
  rcases List.mem_append.mp hm with h | h
  · exact hi.2 n h
  · have : n = name := by simpa using h
    subst this
    rw [hasSuffix_join_name _ n hn] at ht
    exact ⟨hn, ht⟩

theorem fromGitDir_snoc (root : Str) (pre : List Str) (name : Str) (d : repo)
    (hi : Inside root pre) (hn : Name name)
    (hg : HasSuffix (Join [walkPath root pre, name]) gitSuffix = true)
    (hd : d.FullPath = TrimSuffix (Join [walkPath root pre, name]) gitSuffix) :
    FromGitDir root d := by
  refine ⟨pre ++ [name], ?_, ?_, ?_, hi.1, ?_⟩
  · intro n hm
    rcases List.mem_append.mp hm with h | h
    · exact (hi.2 n h).1
    · have : n = name := by simpa using h
      rw [this]; exact hn
  · rw [walkPath_snoc]; exact hg
  · rw [walkPath_snoc]; exact hd
  · intro n hm
    rw [List.dropLast_concat] at hm
    exact (hi.2 n hm).2

mutual
theorem walk_found (stat : Str → Bool) (root : Str) : ∀ (node : Node) (pre : List Str)
    (name : Str) (g : Slice), node.wellNamed = true → Inside root pre → Name name →
    ∀ d ∈ (walk stat (Join [walkPath root pre, name]) node g).1.elems,
      d ∈ g.elems ∨ FromGitDir root d
  | .broken e, pre, name, g, _, _, _ => by
    intro d hd
    left
    simpa [walk, walkFn_error] using hd
  | .file, pre, name, g, _, _, _ => by
    intro d hd
    left
    simpa [walk, walkFn_file] using hd
  | .unreadable e, pre, name, g, _, _, _ => by
    intro d hd
    left
    simpa [walk, walkFn_error] using hd
  | .dir es, pre, name, g, hw, hi, hn => by
    intro d hd
    have hes : es.wellNamed = true := by simpa [Node.wellNamed] using hw
    simp only [walk] at hd
    rcases walkFn_dir_cases stat g (Join [walkPath root pre, name]) with h | ⟨_, hg, h⟩ | ⟨ht, h⟩
    · rw [h] at hd
      left; exact hd
    · rw [h] at hd
      simp only [elems_appendRepo, List.mem_append, List.mem_singleton] at hd
      rcases hd with hd | hd
      · left; exact hd
      · right
        subst hd
        exact fromGitDir_snoc root pre name _ hi hn hg rfl
    · rw [h] at hd
      simp only at hd
      rw [← walkPath_snoc] at hd
      exact walkEntries_found stat root es (pre ++ [name]) g hes
        (inside_snoc root pre name hi hn ht) d hd
theorem walkEntries_found (stat : Str → Bool) (root : Str) : ∀ (es : Entries)
    (pre : List Str) (g : Slice), es.wellNamed = true → Inside root pre →
    ∀ d ∈ (walkEntries stat (walkPath root pre) es g).1.elems,
      d ∈ g.elems ∨ FromGitDir root d
  | .nil, pre, g, _, _ => by
    intro d hd
    left
    simpa [walkEntries] using hd
  | .cons name child rest, pre, g, hw, hi => by
    intro d hd
    have hw2 : Name name ∧ child.wellNamed = true ∧ rest.wellNamed = true := by
      simpa [Entries.wellNamed, and_assoc] using hw
    obtain ⟨hn, hcw, hrw⟩ := hw2
    cases child with
    | broken e =>
      left
      simpa [walkEntries, walkFn_error] using hd
    | file =>
      simp only [walkEntries, walk, walkFn_file] at hd
      exact walkEntries_found stat root rest pre g hrw hi d hd
    | unreadable e =>
      left
      simpa [walkEntries, walk, walkFn_error] using hd
    | dir es =>
      have hc := walk_found stat root (Node.dir es) pre name g hcw hi hn
      simp only [walkEntries] at hd
      cases hwk : walk stat (Join [walkPath root pre, name]) (Node.dir es) g with
      | mk g1 r =>
        rw [hwk] at hd hc
        simp only at hc
        have hrest : ∀ d ∈ (walkEntries stat (walkPath root pre) rest g1).1.elems,
            d ∈ g.elems ∨ FromGitDir root d := by
          intro d2 hd2
          rcases walkEntries_found stat root rest pre g1 hrw hi d2 hd2 with h | h
          · exact hc d2 h
          · right; exact h
        cases r with
        | none => exact hrest d hd
        | some err =>
          cases err with
          | SkipDir => exact hrest d hd
          | os c => exact hc d hd
end

/-- C2 (as amended): for every root and every directory tree (its entries
bearing ordinary file names), every descriptor returned by `findGitFolders`
comes from a directory whose walk path ends in `/.git` and that is the root
or is reached from the root through entries of the tree; the root path as it
is given does not end in `.terraform`, and no directory passed between the
root and that `.git` directory has a name ending in `.terraform`. -/
theorem findGitFolders_skips_terraform (stat : Str → Bool) (root : Str) (tree : Node)
    (hw : tree.wellNamed = true) :
    ∀ d ∈ (findGitFolders stat root tree).1.elems,
      ∃ names : List Str, (∀ n ∈ names, Name n) ∧
        HasSuffix (walkPath root names) gitSuffix = true ∧
        d.FullPath = TrimSuffix (walkPath root names) gitSuffix ∧
        HasSuffix root terraformSuffix = false ∧
        ∀ n ∈ names.dropLast, HasSuffix n terraformSuffix = false := by
  intro d hd
  have hfst : (findGitFolders stat root tree).1 = (walk stat root tree none).1 := by
    unfold findGitFolders
    rw [walk_eq]
    cases hwk : walk stat root tree none with
    | mk g1 r =>
      cases r with
      | none => rfl
      | some err => cases err <;> rfl
  rw [hfst] at hd
  cases tree with
  | broken e => simp [walk, walkFn_error, Slice.elems] at hd
  | file => simp [walk, walkFn_file, Slice.elems] at hd
  | unreadable e => simp [walk, walkFn_error, Slice.elems] at hd
  | dir es =>
    have hes : es.wellNamed = true := by simpa [Node.wellNamed] using hw
    simp only [walk] at hd
    rcases walkFn_dir_cases stat none root with h | ⟨ht, hg, h⟩ | ⟨ht, h⟩
    · rw [h] at hd
      simp [Slice.elems] at hd
    · rw [h] at hd
      rw [elems_appendRepo] at hd
      have hd2 : d = ⟨getLastTwoElements (TrimSuffix root gitSuffix),
          TrimSuffix root gitSuffix⟩ := by
        simpa [Slice.elems] using hd
      subst hd2
      exact ⟨[], by simp, hg, rfl, ht, by simp⟩
    · rw [h] at hd
      simp only at hd
      have hi : Inside root [] := ⟨ht, by simp⟩
      rcases walkEntries_found stat root es [] none hes hi d hd with h2 | h2
      · simp [Slice.elems] at h2
      · exact h2

/-- Witness for C2 (as amended): under `root`, the repository beneath
`mod.terraform` is absent from the result. -/
theorem findGitFolders_skips_terraform_witness :
    treeTerraform.wellNamed = true ∧
    (findGitFolders noGoMod (ascii "root") treeTerraform).1.elems
      = [⟨ascii "root/p", ascii "root/p"⟩] ∧
    ∀ d ∈ (findGitFolders noGoMod (ascii "root") treeTerraform).1.elems,
      ∃ names : List Str, (∀ n ∈ names, Name n) ∧
        HasSuffix (walkPath (ascii "root") names) gitSuffix = true ∧
        d.FullPath = TrimSuffix (walkPath (ascii "root") names) gitSuffix ∧
        HasSuffix (ascii "root") terraformSuffix = false ∧
        ∀ n ∈ names.dropLast, HasSuffix n terraformSuffix = false :=
  ⟨by decide, by decide,
    findGitFolders_skips_terraform noGoMod (ascii "root") treeTerraform (by decide)⟩

/-- C2 (as stated) fails: the directory `root.terraform`, scanned as the root
`root.terraform/`, is not skipped, and the descriptor returned for it has a
`FullPath` whose name ends in `.terraform`; written `root.terraform` the same
directory is skipped. -/
theorem findGitFolders_root_trailing_separator :
    findGitFolders noGoMod (ascii "root.terraform/") treeRepo
      = (some [⟨ascii "root.terraform", ascii "root.terraform"⟩], none) ∧
    HasSuffix (ascii "root.terraform") terraformSuffix = true ∧
    HasSuffix (ascii "root.terraform/") terraformSuffix = false ∧
    findGitFolders noGoMod (ascii "root.terraform") treeRepo = (none, none) := by
  decide

/-- C1: the code fails the claim at the root `.` of a directory that holds the
directory `.git`. The walk passes that directory to the callback under the
path `.git`, which does not end in `/.git`: nothing is recorded, the walk
goes on into the directory, and the result is the nil slice without error,
where the claim asks for one descriptor. -/
theorem findGitFolders_dot_root :
    treeRepo = Node.dir (Entries.cons gitName (Node.dir Entries.nil) Entries.nil) ∧
    Join [ascii ".", gitName] = ascii ".git" ∧
    HasSuffix (ascii ".git") gitSuffix = false ∧
    walkFn noGoMod none (ascii ".git") true none = (none, none) ∧
    findGitFolders noGoMod (ascii ".") treeRepo = (none, none) :=
  ⟨rfl, by decide, by decide, by decide, by decide⟩

/-! ## UTF-8 and JSON strings -/

theorem decodeRune_ascii (b0 : Nat) (tail : Str) (h : b0 < 0x80) :
    DecodeRune (b0 :: tail) = (b0, 1) := by
  unfold DecodeRune
  simp only
  rw [if_pos h]

theorem decodeRune_two (b0 b1 : Nat) (tail : Str) (h0 : 0xC2 ≤ b0) (h0' : b0 < 0xE0)
    (h1 : 0x80 ≤ b1) (h1' : b1 ≤ 0xBF) :
    DecodeRune (b0 :: b1 :: tail) = ((b0 - 0xC0) * 64 + (b1 - 0x80), 2) := by
  unfold DecodeRune
  simp only
  rw [if_neg (by omega), if_neg (by omega), if_pos (by omega), if_pos ⟨h1, h1'⟩]

theorem decodeRune_three (b0 b1 b2 : Nat) (tail : Str) (h0 : 0xE0 ≤ b0) (h0' : b0 < 0xF0)
    (h1 : (if b0 = 0xE0 then 0xA0 else 0x80) ≤ b1)
    (h1' : b1 ≤ (if b0 = 0xED then 0x9F else 0xBF))
    (h2 : 0x80 ≤ b2) (h2' : b2 ≤ 0xBF) :
    DecodeRune (b0 :: b1 :: b2 :: tail)
      = ((b0 - 0xE0) * 4096 + (b1 - 0x80) * 64 + (b2 - 0x80), 3) := by
  unfold DecodeRune
  simp only
  rw [if_neg (by omega), if_neg (by omega), if_neg (by omega), if_pos (by omega),
    if_pos ⟨h1, h1', h2, h2'⟩]

theorem decodeRune_four (b0 b1 b2 b3 : Nat) (tail : Str) (h0 : 0xF0 ≤ b0) (h0' : b0 < 0xF5)
    (h1 : (if b0 = 0xF0 then 0x90 else 0x80) ≤ b1)
    (h1' : b1 ≤ (if b0 = 0xF4 then 0x8F else 0xBF))
    (h2 : 0x80 ≤ b2) (h2' : b2 ≤ 0xBF) (h3 : 0x80 ≤ b3) (h3' : b3 ≤ 0xBF) :
    DecodeRune (b0 :: b1 :: b2 :: b3 :: tail)
      = ((b0 - 0xF0) * 262144 + (b1 - 0x80) * 4096 + (b2 - 0x80) * 64 + (b3 - 0x80), 4) := by
  unfold DecodeRune
  simp only
  rw [if_neg (by omega), if_neg (by omega), if_neg (by omega), if_neg (by omega),
    if_pos (by omega), if_pos ⟨h1, h1', h2, h2', h3, h3'⟩]

theorem encodeRune_one (r : Nat) (h : r ≤ 0x7F) : EncodeRune r = [r] := by
  unfold EncodeRune
  rw [if_pos h]

theorem encodeRune_two (r : Nat) (h1 : ¬ r ≤ 0x7F) (h2 : r ≤ 0x7FF) :
    EncodeRune r = [0xC0 + r / 64, 0x80 + r % 64] := by
  unfold EncodeRune
  rw [if_neg h1, if_pos h2]

theorem encodeRune_three (r : Nat) (hv : ValidRune r) (h2 : ¬ r ≤ 0x7FF) (h3 : r ≤ 0xFFFF) :
    EncodeRune r = [0xE0 + r / 4096, 0x80 + r / 64 % 64, 0x80 + r % 64] := by
  unfold ValidRune at hv
  unfold EncodeRune
  rw [if_neg (by omega), if_neg h2, if_neg (by omega), if_pos h3]

theorem encodeRune_four (r : Nat) (hv : ValidRune r) (h3 : ¬ r ≤ 0xFFFF) :
    EncodeRune r
      = [0xF0 + r / 262144, 0x80 + r / 4096 % 64, 0x80 + r / 64 % 64, 0x80 + r % 64] := by
  unfold ValidRune at hv
  unfold EncodeRune
  rw [if_neg (by omega), if_neg (by omega), if_neg (by omega), if_neg h3]

theorem decodeRune_encodeRune (r : Nat) (hv : ValidRune r) (tail : Str) :
    DecodeRune (EncodeRune r ++ tail) = (r, (EncodeRune r).length) := by
  have hv2 := hv
  unfold ValidRune at hv2
  by_cases h1 : r ≤ 0x7F
  · rw [encodeRune_one r h1]
    exact decodeRune_ascii r tail (by omega)
  · by_cases h2 : r ≤ 0x7FF
    · rw [encodeRune_two r h1 h2]
      have := decodeRune_two (0xC0 + r / 64) (0x80 + r % 64) tail (by omega) (by omega)
        (by omega) (by omega)
      have e : [0xC0 + r / 64, 0x80 + r % 64] ++ tail
          = (0xC0 + r / 64) :: (0x80 + r % 64) :: tail := rfl
      rw [e, this]
      refine Prod.ext ?_ rfl
      show (0xC0 + r / 64 - 0xC0) * 64 + (0x80 + r % 64 - 0x80) = r
      omega
    · by_cases h3 : r ≤ 0xFFFF
      · rw [encodeRune_three r hv h2 h3]
        have := decodeRune_three (0xE0 + r / 4096) (0x80 + r / 64 % 64) (0x80 + r % 64) tail
          (by omega) (by omega) (by split_ifs <;> omega) (by split_ifs <;> omega)
          (by omega) (by omega)
        have e : [0xE0 + r / 4096, 0x80 + r / 64 % 64, 0x80 + r % 64] ++ tail
            = (0xE0 + r / 4096) :: (0x80 + r / 64 % 64) :: (0x80 + r % 64) :: tail := rfl
        rw [e, this]
        refine Prod.ext ?_ rfl
        show (0xE0 + r / 4096 - 0xE0) * 4096 + (0x80 + r / 64 % 64 - 0x80) * 64
          + (0x80 + r % 64 - 0x80) = r
        omega
      · rw [encodeRune_four r hv h3]
        have := decodeRune_four (0xF0 + r / 262144) (0x80 + r / 4096 % 64)
          (0x80 + r / 64 % 64) (0x80 + r % 64) tail
          (by omega) (by omega) (by split_ifs <;> omega) (by split_ifs <;> omega)
          (by omega) (by omega) (by omega) (by omega)
        have e : [0xF0 + r / 262144, 0x80 + r / 4096 % 64, 0x80 + r / 64 % 64,
            0x80 + r % 64] ++ tail
            = (0xF0 + r / 262144) :: (0x80 + r / 4096 % 64) :: (0x80 + r / 64 % 64)
                :: (0x80 + r % 64) :: tail := rfl
        rw [e, this]
        refine Prod.ext ?_ rfl
        show (0xF0 + r / 262144 - 0xF0) * 262144 + (0x80 + r / 4096 % 64 - 0x80) * 4096
          + (0x80 + r / 64 % 64 - 0x80) * 64 + (0x80 + r % 64 - 0x80) = r
        omega

theorem encodeRune_head (r : Nat) (hv : ValidRune r) (h1 : ¬ r ≤ 0x7F) :
    ∃ b0 b1 bs, EncodeRune r = b0 :: b1 :: bs ∧ 0x80 ≤ b0 := by
  by_cases h2 : r ≤ 0x7FF
  · exact ⟨_, _, _, encodeRune_two r h1 h2, by omega⟩
  · by_cases h3 : r ≤ 0xFFFF
    · exact ⟨_, _, _, encodeRune_three r hv h2 h3, by omega⟩
    · exact ⟨_, _, _, encodeRune_four r hv h3, by omega⟩

theorem encodeBody_ascii (f r : Nat) (tail : Str) (h : r < 0x80) :
    encodeBody (f + 1) (r :: tail)
      = (if htmlSafe r then [r] else escapeByte r) ++ encodeBody f tail := by
  rw [encodeBody, if_pos h]

theorem parse_ascii (f r : Nat) (more acc : Str) (h : r < 0x80) :
    parseStringBody (f + 1) ((if htmlSafe r then [r] else escapeByte r) ++ more) acc
      = parseStringBody f more (acc ++ [r]) := by
  interval_cases r <;> rfl

theorem encodeBody_step (f r : Nat) (tail : Str) (hv : ValidRune r) :
    encodeBody (f + 1) (EncodeRune r ++ tail) = encodeRune1 r ++ encodeBody f tail := by
  by_cases h1 : r ≤ 0x7F
  · rw [encodeRune_one r h1]
    unfold encodeRune1
    rw [if_pos (by omega)]
    exact encodeBody_ascii f r tail (by omega)
  · obtain ⟨b0, b1, bs, hb, hb0⟩ := encodeRune_head r hv h1
    have hd := decodeRune_encodeRune r hv tail
    have hdrop : (EncodeRune r ++ tail).drop (EncodeRune r).length = tail :=
      List.drop_left _ _
    have htake : (EncodeRune r ++ tail).take (EncodeRune r).length = EncodeRune r :=
      List.take_left _ _
    have hlen : (EncodeRune r).length ≠ 1 := by rw [hb]; simp
    unfold encodeRune1
    rw [if_neg (by omega)]
    generalize hE : EncodeRune r = E at hb hd hdrop htake hlen
    subst hb
    have e : (b0 :: b1 :: bs) ++ tail = b0 :: (b1 :: bs ++ tail) := rfl
    rw [e] at hd hdrop htake ⊢
    rw [encodeBody, if_neg (by omega)]
    simp only [hd]
    rw [if_neg (fun h => hlen h.2)]
    by_cases hls : r = 0x2028 ∨ r = 0x2029
    · rw [if_pos hls, if_pos hls, hdrop]
    · rw [if_neg hls, if_neg hls, hdrop, htake]

theorem parse_raw (f b0 : Nat) (rest acc : Str) (h : 0x80 ≤ b0) :
    parseStringBody (f + 1) (b0 :: rest) acc
      = parseStringBody f ((b0 :: rest).drop (DecodeRune (b0 :: rest)).2)
        (acc ++ EncodeRune (DecodeRune (b0 :: rest)).1) := by
  cases rest with
  | nil =>
    rw [parseStringBody, if_neg (by omega), if_neg (by omega), if_neg (by omega),
      if_neg (by omega)]
  | cons e rest2 =>
    rw [parseStringBody, if_neg (by omega), if_neg (by omega), if_neg (by omega),
      if_neg (by omega)]

theorem parse_step (f r : Nat) (more acc : Str) (hv : ValidRune r) :
    parseStringBody (f + 1) (encodeRune1 r ++ more) acc
      = parseStringBody f more (acc ++ EncodeRune r) := by
  by_cases h1 : r ≤ 0x7F
  · rw [encodeRune_one r h1]
    unfold encodeRune1
    rw [if_pos (by omega)]
    exact parse_ascii f r more acc (by omega)
  · by_cases hls : r = 0x2028 ∨ r = 0x2029
    · rcases hls with h | h <;> subst h <;> rfl
    · obtain ⟨b0, b1, bs, hb, hb0⟩ := encodeRune_head r hv h1
      have hd := decodeRune_encodeRune r hv more
      have hdrop : (EncodeRune r ++ more).drop (EncodeRune r).length = more :=
        List.drop_left _ _
      unfold encodeRune1
      rw [if_neg (by omega), if_neg hls]
      generalize hE : EncodeRune r = E at hb hd hdrop ⊢
      subst hb
      have e : (b0 :: b1 :: bs) ++ more = b0 :: (b1 :: bs ++ more) := rfl
      rw [e] at hd hdrop ⊢
      rw [parse_raw f b0 _ acc hb0]
      simp only [hd]
      rw [hdrop, hE]

theorem encodeRune1_ne_nil (r : Nat) (hv : ValidRune r) : encodeRune1 r ≠ [] := by
  unfold encodeRune1
  by_cases h1 : r < 0x80
  · rw [if_pos h1]
    interval_cases r <;> decide
  · rw [if_neg h1]
    split
    · simp
    · obtain ⟨b0, b1, bs, hb, _⟩ := encodeRune_head r hv (by omega)
      rw [hb]; simp

theorem encodeRune_ne_nil (r : Nat) : EncodeRune r ≠ [] := by
  unfold EncodeRune
  split_ifs <;> simp

theorem length_flatMap_ge (runes : List Nat) (g : Nat → Str) (h : ∀ r ∈ runes, g r ≠ []) :
    runes.length ≤ (runes.flatMap g).length := by
  induction runes with
  | nil => simp
  | cons r rs ih =>
    have h1 : 0 < (g r).length := List.length_pos.mpr (h r (List.mem_cons_self _ _))
    have h2 := ih (fun x hx => h x (List.mem_cons_of_mem _ hx))
    simp only [List.flatMap_cons, List.length_append, List.length_cons]
    omega

theorem encodeBody_runes (runes : List Nat) (hv : ∀ r ∈ runes, ValidRune r) :
    ∀ fuel, runes.length ≤ fuel →
      encodeBody fuel (runes.flatMap EncodeRune) = runes.flatMap encodeRune1 := by
  induction runes with
  | nil =>
    intro fuel _
    cases fuel <;> simp [encodeBody]
  | cons r rs ih =>
    intro fuel hf
    cases fuel with
    | zero => simp at hf
    | succ f =>
      simp only [List.flatMap_cons]
      rw [encodeBody_step f r _ (hv r (List.mem_cons_self _ _)),
        ih (fun x hx => hv x (List.mem_cons_of_mem _ hx)) f (by simpa using hf)]

theorem parse_runes (runes : List Nat) (hv : ∀ r ∈ runes, ValidRune r) (rest : Str) :
    ∀ fuel acc, runes.length + 1 ≤ fuel →
      parseStringBody fuel (runes.flatMap encodeRune1 ++ 34 :: rest) acc
        = some (acc ++ runes.flatMap EncodeRune, rest) := by
  induction runes with
  | nil =>
    intro fuel acc hf
    cases fuel with
    | zero => simp at hf
    | succ f =>
      cases rest <;> simp [parseStringBody]
  | cons r rs ih =>
    intro fuel acc hf
    cases fuel with
    | zero => simp at hf
    | succ f =>
      simp only [List.flatMap_cons, List.append_assoc]
      rw [parse_step f r _ acc (hv r (List.mem_cons_self _ _)),
        ih (fun x hx => hv x (List.mem_cons_of_mem _ hx)) f _ (by simpa using hf)]
      simp

/-- A JSON string written by `appendString` for well-formed UTF-8 is read
back as the same string. -/
theorem parseString_appendString (s rest : Str) (hs : ValidUTF8 s) :
    parseString (appendString s ++ rest) = some (s, rest) := by
  obtain ⟨runes, hv, rfl⟩ := hs
  have hlen1 := length_flatMap_ge runes EncodeRune (fun r _ => encodeRune_ne_nil r)
  have hlen2 := length_flatMap_ge runes encodeRune1 (fun r hr => encodeRune1_ne_nil r (hv r hr))
  unfold appendString
  rw [encodeBody_runes runes hv _ hlen1]
  have e : 34 :: (runes.flatMap encodeRune1 ++ [34]) ++ rest
      = 34 :: (runes.flatMap encodeRune1 ++ 34 :: rest) := by simp
  rw [e]
  unfold parseString
  simp only
  rw [parse_runes runes hv rest _ [] (by simp only [List.length_append, List.length_cons]; omega)]
  simp

/-! ## Decoding what `MarshalIndent` writes -/

theorem validUTF8_ascii_short : ValidUTF8 (ascii "short_name") :=
  ⟨ascii "short_name", by decide, by decide⟩

theorem validUTF8_ascii_full : ValidUTF8 (ascii "full_path") :=
  ⟨ascii "full_path", by decide, by decide⟩

theorem parseMemberValue_string (k v tail : Str) (f : Field) (r0 : repo)
    (hf : fieldOf k = some f) (hv : ValidUTF8 v) :
    parseMemberValue k (appendString v ++ tail) r0 = some (f.set r0 v, tail) := by
  have h := parseString_appendString v tail hv
  unfold parseMemberValue
  rw [hf]
  have e : appendString v ++ tail = 34 :: (encodeBody v.length v ++ [34] ++ tail) := rfl
  rw [e] at h ⊢
  simp only
  unfold parseString at h
  simp only at h
  rw [h]
  rfl

theorem parseMembers_member (fuel : Nat) (k v tail : Str) (f : Field) (r0 : repo)
    (hk : ValidUTF8 k) (hf : fieldOf k = some f) (hv : ValidUTF8 v) :
    parseMembers (fuel + 1) (appendString k ++ (58 :: 32 :: (appendString v ++ tail))) r0
      = match skipSpace tail with
        | 44 :: rest4 => parseMembers fuel (skipSpace rest4) (f.set r0 v)
        | 125 :: rest4 => some (f.set r0 v, rest4)
        | _ => none := by
  rw [parseMembers, parseString_appendString k _ hk]
  have h1 : skipSpace (58 :: 32 :: (appendString v ++ tail))
      = 58 :: 32 :: (appendString v ++ tail) := rfl
  have h2 : skipSpace (32 :: (appendString v ++ tail)) = appendString v ++ tail := rfl
  simp only [h1, h2, parseMemberValue_string k v tail f r0 hf hv]

theorem ascii_open : ascii "\x7b\n    " = [123, 10, 32, 32, 32, 32] := by decide

theorem ascii_close : ascii "\n  \x7d" = [10, 32, 32, 125] := by decide

theorem ascii_comma : ascii ",\n    " = [44, 10, 32, 32, 32, 32] := by decide

theorem ascii_short_key :
    ascii "\"short_name\": " = appendString (ascii "short_name") ++ [58, 32] := by decide

theorem ascii_full_key :
    ascii "\"full_path\": " = appendString (ascii "full_path") ++ [58, 32] := by decide

theorem encodeRepo_empty : encodeRepo ⟨[], []⟩ = [123, 125] := by decide

theorem encodeRepo_short (sn : Str) (h : sn ≠ []) :
    encodeRepo ⟨sn, []⟩ = 123 :: 10 :: 32 :: 32 :: 32 :: 32 ::
      (appendString (ascii "short_name") ++ (58 :: 32 :: (appendString sn ++ [10, 32, 32, 125]))) := by
  unfold encodeRepo repoMembers
  simp only [h, if_false, if_true, List.append_nil]
  rw [if_neg (by simp), ascii_open, ascii_close, ascii_short_key]
  simp [List.intercalate, List.intersperse]

theorem encodeRepo_full (fp : Str) (h : fp ≠ []) :
    encodeRepo ⟨[], fp⟩ = 123 :: 10 :: 32 :: 32 :: 32 :: 32 ::
      (appendString (ascii "full_path") ++ (58 :: 32 :: (appendString fp ++ [10, 32, 32, 125]))) := by
  unfold encodeRepo repoMembers
  simp only [h, if_false, if_true, List.nil_append]
  rw [if_neg (by simp), ascii_open, ascii_close, ascii_full_key]
  simp [List.intercalate, List.intersperse]

theorem encodeRepo_both (sn fp : Str) (h1 : sn ≠ []) (h2 : fp ≠ []) :
    encodeRepo ⟨sn, fp⟩ = 123 :: 10 :: 32 :: 32 :: 32 :: 32 ::
      (appendString (ascii "short_name") ++ (58 :: 32 :: (appendString sn ++
        (44 :: 10 :: 32 :: 32 :: 32 :: 32 ::
          (appendString (ascii "full_path") ++
            (58 :: 32 :: (appendString fp ++ [10, 32, 32, 125]))))))) := by
  unfold encodeRepo repoMembers
  simp only [h1, h2, if_false]
  rw [if_neg (by simp), ascii_open, ascii_close, ascii_comma, ascii_short_key, ascii_full_key]
  simp [List.intercalate, List.intersperse]

theorem parseElement_open (k x : Str) :
    parseElement (123 :: 10 :: 32 :: 32 :: 32 :: 32 :: (appendString k ++ x))
      = parseMembers (appendString k ++ x).length (appendString k ++ x) ⟨[], []⟩ := rfl

theorem length_member_ge (k x : Str) :
    ∃ n, (appendString k ++ (58 :: 32 :: x)).length = n + 1 + 1 := by
  refine ⟨(appendString k ++ (58 :: 32 :: x)).length - 2, ?_⟩
  have : 2 ≤ (appendString k ++ (58 :: 32 :: x)).length := by
    simp only [List.length_append, List.length_cons]
    omega
  omega

theorem parseElement_encodeRepo (r : repo) (hr : ValidRepo r) (tail : Str) :
    parseElement (encodeRepo r ++ tail) = some (r, tail) := by
  obtain ⟨sn, fp⟩ := r
  obtain ⟨hs, hf⟩ := hr
  simp only at hs hf
  by_cases h1 : sn = []
  · by_cases h2 : fp = []
    · subst h1; subst h2
      rw [encodeRepo_empty]; rfl
    · subst h1
      have e : encodeRepo ⟨[], fp⟩ ++ tail = 123 :: 10 :: 32 :: 32 :: 32 :: 32 ::
          (appendString (ascii "full_path") ++
            (58 :: 32 :: (appendString fp ++ (10 :: 32 :: 32 :: 125 :: tail)))) := by
        rw [encodeRepo_full fp h2]; simp
      rw [e, parseElement_open]
      obtain ⟨n, hn⟩ := length_member_ge (ascii "full_path")
        (appendString fp ++ (10 :: 32 :: 32 :: 125 :: tail))
      rw [hn, parseMembers_member _ _ _ _ Field.FullPath _ validUTF8_ascii_full (by decide) hf]
      rfl
  · by_cases h2 : fp = []
    · subst h2
      have e : encodeRepo ⟨sn, []⟩ ++ tail = 123 :: 10 :: 32 :: 32 :: 32 :: 32 ::
          (appendString (ascii "short_name") ++
            (58 :: 32 :: (appendString sn ++ (10 :: 32 :: 32 :: 125 :: tail)))) := by
        rw [encodeRepo_short sn h1]; simp
      rw [e, parseElement_open]
      obtain ⟨n, hn⟩ := length_member_ge (ascii "short_name")
        (appendString sn ++ (10 :: 32 :: 32 :: 125 :: tail))
      rw [hn, parseMembers_member _ _ _ _ Field.ShortName _ validUTF8_ascii_short (by decide) hs]
      rfl
    · have e : encodeRepo ⟨sn, fp⟩ ++ tail = 123 :: 10 :: 32 :: 32 :: 32 :: 32 ::
          (appendString (ascii "short_name") ++ (58 :: 32 :: (appendString sn ++
            (44 :: 10 :: 32 :: 32 :: 32 :: 32 ::
              (appendString (ascii "full_path") ++
                (58 :: 32 :: (appendString fp ++ (10 :: 32 :: 32 :: 125 :: tail)))))))) := by
        rw [encodeRepo_both sn fp h1 h2]; simp
      rw [e, parseElement_open]
      obtain ⟨n, hn⟩ := length_member_ge (ascii "short_name")
        (appendString sn ++
            (44 :: 10 :: 32 :: 32 :: 32 :: 32 ::
              (appendString (ascii "full_path") ++
                (58 :: 32 :: (appendString fp ++ (10 :: 32 :: 32 :: 125 :: tail))))))
      rw [hn, parseMembers_member _ _ _ _ Field.ShortName _ validUTF8_ascii_short (by decide) hs]
      have hsk : ∀ x : Str, skipSpace (44 :: 10 :: 32 :: 32 :: 32 :: 32 ::
          (appendString (ascii "full_path") ++ x))
          = 44 :: 10 :: 32 :: 32 :: 32 :: 32 :: (appendString (ascii "full_path") ++ x) :=
        fun _ => rfl
      have hsk2 : ∀ x : Str, skipSpace (10 :: 32 :: 32 :: 32 :: 32 ::
          (appendString (ascii "full_path") ++ x))
          = appendString (ascii "full_path") ++ x := fun _ => rfl
      simp only [hsk, hsk2]
      rw [parseMembers_member _ _ _ _ Field.FullPath _ validUTF8_ascii_full (by decide) hf]
      rfl

theorem encodeRepo_head (r : repo) : ∃ y, encodeRepo r = 123 :: y := by
  unfold encodeRepo
  split
  · exact ⟨[125], by decide⟩
  · exact ⟨_, by rw [ascii_open]; rfl⟩

theorem intercalate_cons_cons (sp a b : Str) (xs : List Str) :
    sp.intercalate (a :: b :: xs) = a ++ (sp ++ sp.intercalate (b :: xs)) := by
  simp [List.intercalate, List.intersperse]

theorem intercalate_singleton (sp a : Str) : sp.intercalate [a] = a := by
  simp [List.intercalate, List.intersperse]

theorem parseElements_step (f : Nat) (r : repo) (hr : ValidRepo r) (tail : Str)
    (acc : List repo) :
    parseElements (f + 1) (encodeRepo r ++ tail) acc
      = match skipSpace tail with
        | 44 :: rest2 => parseElements f (skipSpace rest2) (acc ++ [r])
        | 93 :: rest2 => some (acc ++ [r], rest2)
        | _ => none := by
  rw [parseElements, parseElement_encodeRepo r hr tail]

theorem parseElements_list (rest : Str) : ∀ (rs : List repo) (r : repo) (acc : List repo)
    (fuel : Nat), (∀ x ∈ r :: rs, ValidRepo x) → (r :: rs).length ≤ fuel →
    parseElements fuel
        ((ascii ",\n  ").intercalate ((r :: rs).map encodeRepo) ++ (10 :: 93 :: rest)) acc
      = some (acc ++ r :: rs, rest) := by
  intro rs
  induction rs with
  | nil =>
    intro r acc fuel hv hf
    cases fuel with
    | zero => simp at hf
    | succ f =>
      simp only [List.map_cons, List.map_nil, intercalate_singleton]
      rw [parseElements_step f r (hv r (List.mem_cons_self _ _))]
      rfl
  | cons r2 rs ih =>
    intro r acc fuel hv hf
    cases fuel with
    | zero => simp at hf
    | succ f =>
      obtain ⟨y, hy⟩ := encodeRepo_head r2
      simp only [List.map_cons, intercalate_cons_cons, List.append_assoc]
      rw [parseElements_step f r (hv r (List.mem_cons_self _ _))]
      have ih2 := ih r2 (acc ++ [r]) f (fun x hx => hv x (List.mem_cons_of_mem _ hx))
        (by simp only [List.length_cons] at hf ⊢; omega)
      simp only [List.map_cons, List.append_assoc] at ih2
      have hcons : ∀ z : Str, (ascii ",\n  ").intercalate (encodeRepo r2 :: List.map encodeRepo rs)
          ++ z = 123 :: (y ++ ((ascii ",\n  ").intercalate (encodeRepo r2 :: List.map encodeRepo rs)
            ++ z).drop (y.length + 1)) := by
        intro z
        cases hrs : List.map encodeRepo rs with
        | nil =>
          rw [intercalate_singleton, hy]
          simp
        | cons e es =>
          rw [intercalate_cons_cons, hy]
          simp
      generalize hX : (ascii ",\n  ").intercalate (encodeRepo r2 :: List.map encodeRepo rs)
          ++ (10 :: 93 :: rest) = X at ih2 ⊢
      have hX2 := hcons (10 :: 93 :: rest)
      rw [hX] at hX2
      have hsk : skipSpace (ascii ",\n  " ++ X) = 44 :: 10 :: 32 :: 32 :: X := rfl
      have hsk2 : skipSpace (10 :: 32 :: 32 :: X) = X := by
        rw [hX2]; rfl
      simp only [hsk, hsk2, ih2]
      simp

theorem length_intercalate_ge (sp : Str) (l : List Str) (h : ∀ e ∈ l, e ≠ []) :
    l.length ≤ (sp.intercalate l).length := by
  induction l with
  | nil => simp
  | cons a as ih =>
    have ha : 0 < a.length := List.length_pos.mpr (h a (List.mem_cons_self _ _))
    cases as with
    | nil => rw [intercalate_singleton]; simpa using ha
    | cons b bs =>
      have := ih (fun e he => h e (List.mem_cons_of_mem _ he))
      rw [intercalate_cons_cons]
      simp only [List.length_append, List.length_cons] at this ⊢
      omega

/-- What `MarshalIndent` writes for descriptors in well-formed UTF-8 is
decoded by `Unmarshal` to the same slice. -/
theorem unmarshal_marshalIndent (repos : Slice) (hv : ∀ r ∈ repos.elems, ValidRepo r) :
    Unmarshal (MarshalIndent repos) = some repos := by
  cases repos with
  | none => decide
  | some l =>
    cases l with
    | nil => decide
    | cons r rs =>
      have hv2 : ∀ x ∈ r :: rs, ValidRepo x := hv
      obtain ⟨y, hy⟩ := encodeRepo_head r
      have hopen : ascii "[\n  " = [91, 10, 32, 32] := by decide
      have hclose : ascii "\n]" = [10, 93] := by decide
      unfold MarshalIndent
      simp only [hopen, hclose]
      have hlen : (r :: rs).length ≤
          ((ascii ",\n  ").intercalate ((r :: rs).map encodeRepo) ++ [10, 93]).length := by
        have := length_intercalate_ge (ascii ",\n  ") ((r :: rs).map encodeRepo) (by
          intro e he
          obtain ⟨x, _, rfl⟩ := List.mem_map.mp he
          obtain ⟨z, hz⟩ := encodeRepo_head x
          rw [hz]; simp)
        simp only [List.length_map, List.length_append] at this ⊢
        omega
      have hp := parseElements_list [] rs r [] _ hv2 hlen
      have hcons : ∃ z, (ascii ",\n  ").intercalate ((r :: rs).map encodeRepo) ++ [10, 93]
          = 123 :: z := by
        cases hrs : List.map encodeRepo rs with
        | nil =>
          refine ⟨y ++ [10, 93], ?_⟩
          simp only [List.map_cons, hrs, intercalate_singleton, hy]; rfl
        | cons e es =>
          refine ⟨y ++ (ascii ",\n  " ++ (ascii ",\n  ").intercalate (e :: es)) ++ [10, 93], ?_⟩
          simp only [List.map_cons, hrs, intercalate_cons_cons, hy]
          simp
      obtain ⟨z, hz⟩ := hcons
      generalize hX : (ascii ",\n  ").intercalate ((r :: rs).map encodeRepo) ++ [10, 93] = X
        at hp hz
      have e : [91, 10, 32, 32] ++ (ascii ",\n  ").intercalate ((r :: rs).map encodeRepo)
          ++ [10, 93] = 91 :: 10 :: 32 :: 32 :: X := by
        rw [← hX]; simp
      rw [e]
      subst hz
      have hu : Unmarshal (91 :: 10 :: 32 :: 32 :: 123 :: z)
          = match parseElements (123 :: z).length (123 :: z) [] with
            | some (l, rest3) => if skipSpace rest3 = [] then some (some l) else none
            | none => none := rfl
      rw [hu, hp]
      rfl

/-! ## C5, C6, C7, C9: the cache store and failures -/

/-- C5 (as amended): for every list of descriptors whose strings are
well-formed UTF-8, when the write of `writeCache` succeeds and the file can
be read, reading it back with `readReposFromCache` succeeds and yields the
same descriptors in the same order, descriptors with empty strings
included. -/
theorem cache_roundtrip (d : Disk) (repos : Slice) (hw : d.writable = true)
    (hr : d.readable = true) (hv : ∀ r ∈ repos.elems, ValidRepo r) :
    readReposFromCache (writeCache d repos) = some repos := by
  unfold writeCache readReposFromCache
  simp only [hw, if_true, hr]
  exact unmarshal_marshalIndent repos hv

/-- C5 (as stated) fails: a descriptor whose name holds the byte `0xFF`, which
is not well-formed UTF-8, is read back with U+FFFD in its place. -/
theorem cache_roundtrip_invalid_utf8 :
    readReposFromCache (writeCache emptyDisk (some [⟨[0xFF], []⟩]))
      = some (some [⟨[0xEF, 0xBF, 0xBD], []⟩]) ∧
    readReposFromCache (writeCache emptyDisk (some [⟨[0xFF], []⟩]))
      ≠ some (some [⟨[0xFF], []⟩]) := by
  decide

/-- C6 (as amended): when the cache file exists but cannot be read or parsed,
the fresh scan returns no error and the cache file can be written, `readCache`
returns the result of the scan and the cache file then holds its
serialisation. -/
theorem readCache_fallback (stat : Str → Bool) (root : Str) (tree : Node) (d : Disk)
    (file : Str) (hfile : d.data = some file) (hbad : readReposFromCache d = none)
    (hscan : (findGitFolders stat root tree).2 = none) (hw : d.writable = true) :
    readCache stat root tree d
      = ((findGitFolders stat root tree).1,
         { d with data := some (MarshalIndent (findGitFolders stat root tree).1) }) := by
  unfold readCache
  rw [hfile]
  simp only [hbad]
  unfold readRepos
  cases hf : findGitFolders stat root tree with
  | mk g err =>
    rw [hf] at hscan
    simp only at hscan
    subst hscan
    simp only [writeCache, hw, if_true]

/-- C6 (as stated) fails: with a malformed cache file and a scan that fails
after finding a repository, `readCache` returns the empty list and the cache
file keeps its malformed content. -/
theorem readCache_fallback_scan_error :
    (findGitFolders noGoMod (ascii "root") treeBroken).1
      = some [⟨ascii "root/a", ascii "root/a"⟩] ∧
    readReposFromCache malformedDisk = none ∧
    readCache noGoMod (ascii "root") treeBroken malformedDisk = (some [], malformedDisk) ∧
    (readCache noGoMod (ascii "root") treeBroken malformedDisk).2.data
      ≠ some (MarshalIndent (findGitFolders noGoMod (ascii "root") treeBroken).1) := by
  decide

/-- C7: when the cache file exists and parses as a descriptor array,
`readCache` returns exactly the parsed list and leaves the cache file as it
is, whatever the directory tree under the root is. -/
theorem readCache_hit (stat stat2 : Str → Bool) (root : Str) (tree tree2 : Node) (d : Disk)
    (file : Str) (repos : Slice) (hfile : d.data = some file) (hread : d.readable = true)
    (hparse : Unmarshal file = some repos) :
    readCache stat root tree d = (repos, d) ∧ readCache stat2 root tree2 d = (repos, d) := by
  have h : readReposFromCache d = some repos := by
    unfold readReposFromCache
    rw [hfile]
    simp only [hread, if_true, hparse]
  unfold readCache
  rw [hfile]
  simp only [h, and_self]

/-- C9 (as amended): for a root that is a clean path other than `.` and `/`
and does not itself end in `/.git`, when some reached entry fails,
`findGitFolders` stops at the first failing entry and returns that entry's error together with the
descriptors recorded before it; `readRepos` drops them, returns the empty
list and does not write the cache. -/
theorem findGitFolders_first_failure (stat : Str → Bool) (root : Str) (tree : Node) (d : Disk)
    (pre post : List Entry) (x : Entry) (e : Nat)
    (hroot : CleanRoot root) (hgit : HasSuffix root gitSuffix = false)
    (hw : tree.wellNamed = true) (hsplit : reached root tree = pre ++ x :: post)
    (hpre : ∀ y ∈ pre, y.fail = none) (hx : x.fail = some e) :
    (findGitFolders stat root tree).2 = some (GoError.os e) ∧
    (findGitFolders stat root tree).1.elems = descriptors pre ∧
    readRepos stat root tree d = (some [], d) := by
  have h := findGitFolders_spec stat root tree hroot hgit hw
  rw [hsplit, replay_first_failure pre post x e hpre hx] at h
  obtain ⟨h1, h2⟩ := h
  refine ⟨h2, h1, ?_⟩
  unfold readRepos
  cases hf : findGitFolders stat root tree with
  | mk g err =>
    rw [hf] at h2
    simp only at h2
    subst h2
    rfl

/-- C9 (as stated) fails: the descriptor found before the failing entry is
returned together with the error. -/
theorem findGitFolders_partial_result :
    findGitFolders noGoMod (ascii "root") treeBroken
      = (some [⟨ascii "root/a", ascii "root/a"⟩], some (GoError.os 5)) ∧
    (findGitFolders noGoMod (ascii "root") treeBroken).1.elems ≠ [] := by
  decide

/-! ## Instances -/

theorem validUTF8_nil : ValidUTF8 [] := ⟨[], by simp, rfl⟩

theorem validRepo_sampleRepos : ∀ r ∈ sampleRepos.elems, ValidRepo r := by
  intro r hr
  have h : r = ⟨ascii "a/b", ascii "/r/a/b"⟩ ∨ r = ⟨[], [0xC3, 0xA9]⟩ ∨ r = ⟨[], []⟩ := by
    simpa [sampleRepos, Slice.elems] using hr
  rcases h with h | h | h
  · subst h
    exact ⟨⟨ascii "a/b", by decide, by decide⟩, ⟨ascii "/r/a/b", by decide, by decide⟩⟩
  · subst h
    exact ⟨validUTF8_nil, ⟨[0xE9], by decide, by decide⟩⟩
  · subst h
    exact ⟨validUTF8_nil, validUTF8_nil⟩

/-- Witness for C5 (as amended), on three descriptors. -/
theorem cache_roundtrip_witness :
    emptyDisk.writable = true ∧ emptyDisk.readable = true ∧
    (∀ r ∈ sampleRepos.elems, ValidRepo r) ∧
    readReposFromCache (writeCache emptyDisk sampleRepos) = some sampleRepos :=
  ⟨rfl, rfl, validRepo_sampleRepos,
    cache_roundtrip emptyDisk sampleRepos rfl rfl validRepo_sampleRepos⟩

/-- Witness for C6 (as amended): a malformed cache file is replaced by the
serialisation of the scan of `treeAB`. -/
theorem readCache_fallback_witness :
    malformedDisk.data = some (ascii "oops") ∧ readReposFromCache malformedDisk = none ∧
    (findGitFolders noGoMod (ascii "root") treeAB).2 = none ∧
    malformedDisk.writable = true ∧
    readCache noGoMod (ascii "root") treeAB malformedDisk
      = ((findGitFolders noGoMod (ascii "root") treeAB).1,
         { malformedDisk with
           data := some (MarshalIndent (findGitFolders noGoMod (ascii "root") treeAB).1) }) :=
  ⟨rfl, by decide, by decide, rfl,
    readCache_fallback noGoMod (ascii "root") treeAB malformedDisk (ascii "oops") rfl
      (by decide) (by decide) rfl⟩

/-- Witness for C7: the cached descriptor is returned for two different
trees. -/
theorem readCache_hit_witness :
    cachedDisk.data = some cachedText ∧
    cachedDisk.readable = true ∧
    Unmarshal cachedText
      = some (some [⟨ascii "a/b", ascii "/r/a/b"⟩]) ∧
    readCache noGoMod (ascii "root") treeAB cachedDisk
      = (some [⟨ascii "a/b", ascii "/r/a/b"⟩], cachedDisk) ∧
    readCache everyGoMod (ascii "root") treeBroken cachedDisk
      = (some [⟨ascii "a/b", ascii "/r/a/b"⟩], cachedDisk) :=
  ⟨rfl, rfl, by decide,
    readCache_hit noGoMod everyGoMod (ascii "root") treeAB treeBroken cachedDisk
      cachedText
      (some [⟨ascii "a/b", ascii "/r/a/b"⟩]) rfl rfl (by decide)⟩

/-- Witness for C9 (as amended): in `treeBroken` the scan stops at `m` with
error 5, having recorded the repository `a` and not the repository `y`. -/
theorem findGitFolders_first_failure_witness :
    CleanRoot (ascii "root") ∧ HasSuffix (ascii "root") gitSuffix = false ∧
    treeBroken.wellNamed = true ∧
    reached (ascii "root") treeBroken = brokenBefore ++ brokenEntry :: brokenAfter ∧
    (∀ y ∈ brokenBefore, y.fail = none) ∧ brokenEntry.fail = some 5 ∧
    descriptors brokenBefore = [⟨ascii "root/a", ascii "root/a"⟩] ∧
    (findGitFolders noGoMod (ascii "root") treeBroken).2 = some (GoError.os 5) ∧
    (findGitFolders noGoMod (ascii "root") treeBroken).1.elems = descriptors brokenBefore ∧
    readRepos noGoMod (ascii "root") treeBroken malformedDisk = (some [], malformedDisk) :=
  ⟨by decide, by decide, by decide, by decide, by decide, rfl, by decide,
    findGitFolders_first_failure noGoMod (ascii "root") treeBroken malformedDisk brokenBefore
      brokenAfter brokenEntry 5 (by decide) (by decide) (by decide) (by decide) (by decide) rfl⟩

/-- Witness for C10: a repository root with and without `go.mod`, probed by
an `os.Stat` that succeeds and by one that fails. -/
theorem findGitFolders_ignores_goMod_witness :
    treeRepoGoMod.stripGoMod = treeRepo.stripGoMod ∧
    findGitFolders everyGoMod (ascii "root") treeRepoGoMod
      = findGitFolders noGoMod (ascii "root") treeRepo :=
  ⟨rfl, findGitFolders_ignores_goMod everyGoMod noGoMod (ascii "root") treeRepoGoMod treeRepo
    rfl⟩

end RF
